import Mathlib

/-!
# nebula-monkey: leader discovery and edge consistency check

A shallow embedding of `pkg/raft/raft.go` (the leader cache of `RaftCluster`,
host specifiers and the registration of peers) and of `cmd/checkEdges.go` (edge
keys, edge equality, edge type resolution, the paginated scan with its row
decoding, the merge of the two scan directions and the forward/reverse
consistency check), followed by the properties established about them.

Conventions of the embedding:

* Go `int64`/`int` values are `Int`; the code only compares and prints them.
* A Go `map[string]T` is an association list; a `range` over a map visits its
  entries in an unspecified order, so every loop over a map takes the visiting
  order as an explicit argument, a permutation of the entries.
* `glog.Fatalf` terminates the process: functions that can reach it return
  `Option`, with `none` for the aborted run.
* A Go loop without a bound takes the number of iterations to run as an
  argument; results are stated for every number that suffices.
* Calls to code outside the two files (the RPC clients, `strconv.Atoi`,
  `createRaftCluster`, `newNebulaConn`) are arguments or library models.
-/

namespace raft

/-- The constant `defaultRaftPort`. -/
def defaultRaftPort : Int := 9780

/-- The struct `RaftPeer`; `client` is the handle of the open connection. -/
structure RaftPeer where
  host : String
  port : Int
  client : Nat
  deriving DecidableEq, Repr

/-- The response `raftex.GetStateResp`, with the fields `doGetLeader` reads. -/
structure GetStateResp where
  ErrorCode : Int
  IsLeader : Bool
  Term : Int
  deriving DecidableEq, Repr

/-- The constant `raftex.ErrorCode_SUCCEEDED`. -/
def ErrorCode_SUCCEEDED : Int := 0

/-- The network as one refresh sees it: what `inst.client.GetState` returns for
the peer registered under an id (an error message when `err != nil`), and what
`newRaftClient host port` returns. -/
structure RaftNet where
  getState : String → Except String GetStateResp
  newRaftClient : String → Int → Except String Nat

/-- The struct `RaftCluster`: the peers by id and the cached leader
(`""` when unknown). -/
structure RaftCluster where
  hosts : List (String × RaftPeer)
  leader : String
  spaceID : Int
  partID : Int
  deriving DecidableEq, Repr

/-- Go `strings.Contains` on character lists. -/
def containsChars : List Char → List Char → Bool
  | [], sub => sub.isEmpty
  | c :: s, sub => sub.isPrefixOf (c :: s) || containsChars s sub

/-- Go `strings.Contains(s, substr)`. -/
def strContains (s substr : String) : Bool := containsChars s.data substr.data

/-- The condition of the `if` at raft.go:125-131: the error messages after which
the peer is reconnected. -/
def isTransient (msg : String) : Bool :=
  strContains msg "i/o timeout" ||
  strContains msg "Invalid data length" ||
  strContains msg "Not enough frame size" ||
  strContains msg "out of sequence response" ||
  strContains msg "Bad version in" ||
  strContains msg "broken pipe" ||
  strContains msg "EOF"

/-- The assignment `inst.client = client` on the peer registered under `id`. -/
def setClient (id : String) (client : Nat) :
    List (String × RaftPeer) → List (String × RaftPeer)
  | [] => []
  | (k, p) :: rest =>
    if k = id then (k, { p with client := client }) :: rest
    else (k, p) :: setClient id client rest

/-- The body of the loop of `doGetLeader` for every peer of `order` in turn;
the state is the cluster and the local `leaderTerm`. `none`: a `glog.Fatalf`
was reached. -/
def doGetLeaderLoop (net : RaftNet) :
    List (String × RaftPeer) → RaftCluster → Int → Option RaftCluster
  | [], c, _ => some c
  | (id, inst) :: rest, c, leaderTerm =>
    match net.getState id with
    | .error msg =>
      if isTransient msg then
        match net.newRaftClient inst.host inst.port with
        | .ok client =>
          doGetLeaderLoop net rest { c with hosts := setClient id client c.hosts } leaderTerm
        | .error _ => doGetLeaderLoop net rest c leaderTerm
      else none
    | .ok resp =>
      if resp.ErrorCode ≠ ErrorCode_SUCCEEDED then none
      else if resp.IsLeader then
        if resp.Term > leaderTerm then
          doGetLeaderLoop net rest { c with leader := id } resp.Term
        else doGetLeaderLoop net rest c leaderTerm
      else doGetLeaderLoop net rest c leaderTerm

/-- The method `RaftCluster.doGetLeader`; `order` is the order in which
`range c.hosts` delivers the peers. -/
def doGetLeader (net : RaftNet) (order : List (String × RaftPeer)) (c : RaftCluster) :
    Option RaftCluster :=
  doGetLeaderLoop net order c 0

/-- The polling loop of `GetLeader` (raft.go:100-109). `seen i` is what the
i-th read of `c.leader` finds (`none`: the refresh goroutine has terminated the
process). The result is the pair `(leader, err)` of the `return`, with
`err = none` for Go's `nil`; the loop itself is unbounded, so the model takes a
number of iterations and answers `none` when they do not reach the `return`. -/
def GetLeaderPoll (seen : Nat → Option String) : Nat → Nat → Option (String × Option String)
  | 0, _ => none
  | fuel + 1, i =>
    match seen i with
    | none => none
    | some leader =>
      if leader ≠ "" then some (leader, none)
      else GetLeaderPoll seen fuel (i + 1)

/-- The method `RaftCluster.GetLeader`. `stale` is the outcome of
`time.Since(c.lastTick) > c.refreshInterval`; when it holds a goroutine runs
`doGetLeader` while the caller polls `c.leader`, and `progress i` is the number
of peers that goroutine has visited when the caller reads `c.leader` for the
i-th time. -/
def GetLeader (net : RaftNet) (order : List (String × RaftPeer)) (c : RaftCluster)
    (stale : Bool) (progress : Nat → Nat) (fuel : Nat) : Option (String × Option String) :=
  GetLeaderPoll
    (fun i =>
      if stale then (doGetLeaderLoop net (order.take (progress i)) c 0).map (fun c' => c'.leader)
      else some c.leader)
    fuel 0

end raft

namespace cmd

/-- The struct `nebula.DateTime`. -/
structure DateTime where
  Year : Int
  Month : Int
  Day : Int
  Hour : Int
  Minute : Int
  Sec : Int
  Microsec : Int
  deriving DecidableEq, Repr

/-- The struct `Edge`; `ts` is a pointer, `none` for `nil`. -/
structure Edge where
  src : Int
  dst : Int
  rank : Int
  idx : String
  ts : Option DateTime
  deriving DecidableEq, Repr

/-- Decimal digits of a natural number, most significant first; the first
argument bounds the number of digits. -/
def decimal : Nat → Nat → List Char
  | 0, _ => []
  | fuel + 1, n =>
    if n < 10 then [Nat.digitChar n]
    else decimal fuel (n / 10) ++ [Nat.digitChar (n % 10)]

/-- The verb `%d` of `fmt.Sprintf` on an integer. -/
def fmtInt : Int → List Char
  | Int.ofNat n => decimal (n + 1) n
  | Int.negSucc n => '-' :: decimal (n + 2) (n + 1)

/-- The method `Edge.Key`: `fmt.Sprintf("%d->%d@%d", e.src, e.dst, e.rank)`. -/
def Edge.Key (e : Edge) : String :=
  String.mk (fmtInt e.src ++ ['-', '>'] ++ fmtInt e.dst ++ ['@'] ++ fmtInt e.rank)

/-- The method `Edge.Equals`. -/
def Edge.Equals (e o : Edge) : Bool :=
  decide (e.dst = o.dst) && decide (e.src = o.src) &&
  decide (e.rank = o.rank) && decide (e.idx = o.idx) &&
  ((e.ts.isNone && o.ts.isNone) ||
    (e.ts.isSome && o.ts.isSome &&
      (match e.ts, o.ts with
       | some a, some b => decide (a = b)
       | _, _ => false)))

/-- The constants `OutEdge`, `InEdge`, `AllEdge` of the integer type `EdgeType`. -/
def OutEdge : Int := 0

/-- See `OutEdge`. -/
def InEdge : Int := 1

/-- See `OutEdge`. -/
def AllEdge : Int := 2

/-- The loop of the closure `mergeEdges` over `tmp`: `emap` is the set of keys
consulted by the loop (the loop has no statement that adds to it) and `edges`
the slice built so far. -/
def mergeLoop (emap : List String) : List Edge → List Edge → List Edge
  | [], edges => edges
  | e :: tmp, edges =>
    if e.Key ∈ emap then mergeLoop emap tmp edges
    else mergeLoop emap tmp (edges ++ [e])

/-- The closure `mergeEdges` of `getEdges`. -/
def mergeEdges (a b : List Edge) : List Edge :=
  mergeLoop [] (a ++ b) []

/-- The function `getEdges`; `scan reverse` is the result of
`doGetEdges(edgeName, reverse)`. -/
def getEdges (scan : Bool → Except String (List Edge)) (edgeType : Int) :
    Except String (List Edge) :=
  if edgeType = OutEdge then scan false
  else if edgeType = InEdge then scan true
  else if edgeType = AllEdge then
    match scan false with
    | .error err => .error err
    | .ok outEdges =>
      match scan true with
      | .error err => .error err
      | .ok inEdges => .ok (mergeEdges outEdges inEdges)
  else .error (String.mk ("unknown edge type: ".data ++ fmtInt edgeType))

/-- A column `nebula.Value` of a scanned row, with the fields the decoding
reads: `IVal` (`*int64`), `SVal` (`[]byte`) and `DtVal` (`*DateTime`), each
`none` when nil. -/
structure Value where
  IVal : Option Int
  SVal : Option String
  DtVal : Option DateTime
  deriving DecidableEq, Repr

/-- The body of the loop over `ds.GetRows()` in `doGetEdges` (lines 203-219):
the edge decoded from one row, `none` when the Go code panics (index out of
range, nil dereference). `string(nil)` is the empty string. -/
def decodeRow (reverse : Bool) (values : List Value) : Option Edge :=
  match values[0]?, values[3]?, values[2]?, values[4]?, values[5]? with
  | some v0, some v3, some v2, some v4, some v5 =>
    let idx := v4.SVal.getD ""
    let ts := v5.DtVal
    let src := if reverse then v3.IVal else v0.IVal
    let dst := if reverse then v0.IVal else v3.IVal
    match src, dst, v2.IVal with
    | some s, some d, some r => some { src := s, dst := d, idx := idx, ts := ts, rank := r }
    | _, _, _ => none
  | _, _, _, _, _ => none

/-- The assignment `emap[k] = v` on a map kept as an association list. -/
def mapSet (k : String) (v : Edge) : List (String × Edge) → List (String × Edge)
  | [] => [(k, v)]
  | (k', v') :: rest =>
    if k' = k then (k', v) :: rest else (k', v') :: mapSet k v rest

/-- The closure `toMap` of `runCheckEdge`. -/
def toMap (edges : List Edge) : List (String × Edge) :=
  edges.foldl (fun emap e => mapSet e.Key e emap) []

/-- The lines `runCheckEdge` writes with `glog.Infof`. -/
inductive LogLine where
  | outSize (n : Nat)
  | inSize (n : Nat)
  | missingIn (key : String)
  | missingOut (key : String)
  | mismatch (outEdge inEdge : Edge)
  deriving DecidableEq, Repr

/-- The first loop of `runCheckEdge` (lines 261-266) over the entries of
`outEdgeMap` in the order `range` delivers them. -/
def missingInLoop (inEdgeMap : List (String × Edge)) : List (String × Edge) → List LogLine
  | [] => []
  | (k, e) :: rest =>
    if (inEdgeMap.lookup k).isNone then LogLine.missingIn e.Key :: missingInLoop inEdgeMap rest
    else missingInLoop inEdgeMap rest

/-- The second loop of `runCheckEdge` (lines 268-274) over the entries of
`inEdgeMap`. -/
def missingOutLoop (outEdgeMap : List (String × Edge)) : List (String × Edge) → List LogLine
  | [] => []
  | (k, e) :: rest =>
    if (outEdgeMap.lookup k).isNone then LogLine.missingOut e.Key :: missingOutLoop outEdgeMap rest
    else missingOutLoop outEdgeMap rest

/-- The third loop of `runCheckEdge` (lines 276-285) over the entries of
`outEdgeMap`. -/
def mismatchLoop (inEdgeMap : List (String × Edge)) : List (String × Edge) → List LogLine
  | [] => []
  | (k, outEdge) :: rest =>
    match inEdgeMap.lookup k with
    | none => mismatchLoop inEdgeMap rest
    | some inEdge =>
      if !outEdge.Equals inEdge then LogLine.mismatch outEdge inEdge :: mismatchLoop inEdgeMap rest
      else mismatchLoop inEdgeMap rest

/-- The function `runCheckEdge`, as the list of lines it logs at info level
(`none`: `glog.Fatal` after a failed scan). `scan reverse` is the result of
`doGetEdges(edgeName, reverse)`; `ord1`, `ord2`, `ord3` are the orders in which
the three `range` loops visit `outEdgeMap`, `inEdgeMap` and `outEdgeMap`. -/
def runCheckEdge (scan : Bool → Except String (List Edge))
    (ord1 ord2 ord3 : List (String × Edge)) : Option (List LogLine) :=
  match scan false with
  | .error _ => none
  | .ok outEdges =>
    match scan true with
    | .error _ => none
    | .ok inEdges =>
      let outEdgeMap := toMap outEdges
      let inEdgeMap := toMap inEdges
      some ([LogLine.outSize outEdgeMap.length, LogLine.inSize inEdgeMap.length] ++
        missingInLoop inEdgeMap ord1 ++
        missingOutLoop outEdgeMap ord2 ++
        mismatchLoop inEdgeMap ord3)

end cmd

/-! ## Host specifiers, edge type resolution and the paginated scan -/

namespace raft

/-- The two failures of `strconv.Atoi`: `strconv.ErrSyntax` and
`strconv.ErrRange`. -/
inductive NumError where
  | ErrSyntax
  | ErrRange
  deriving DecidableEq, Repr

/-- The value of a run of decimal digits read from the left, starting from
`acc`; `none` when a character is not one of `0` to `9`. -/
def digitsValue : List Char → Nat → Option Nat
  | [], acc => some acc
  | ch :: rest, acc =>
    if 48 ≤ ch.toNat ∧ ch.toNat ≤ 57 then digitsValue rest (acc * 10 + (ch.toNat - 48))
    else none

/-- The loop of the library function `strconv.ParseUint(s, 10, 64)` over the
bytes of `s`, with `n` the value read so far. A byte that is not a digit ends it
with `ErrSyntax`; a digit with which the value would leave the unsigned 64-bit
range ends it with `ErrRange` (Go's tests `n >= cutoff` and `n1 < n || n1 >
maxVal`), the bytes after that digit being never read. -/
def parseUintLoop : List Char → Nat → Except NumError Nat
  | [], n => .ok n
  | ch :: rest, n =>
    if 48 ≤ ch.toNat ∧ ch.toNat ≤ 57 then
      if n ≥ 1844674407370955162 then .error NumError.ErrRange
      else if n * 10 + (ch.toNat - 48) > 18446744073709551615 then .error NumError.ErrRange
      else parseUintLoop rest (n * 10 + (ch.toNat - 48))
    else .error NumError.ErrSyntax

/-- The library function `strconv.ParseUint(s, 10, 64)`: the empty text is a
syntax error. On `ErrRange` Go returns the value `1<<64 - 1`. -/
def ParseUint (s : List Char) : Except NumError Nat :=
  if s.isEmpty then .error NumError.ErrSyntax else parseUintLoop s 0

/-- The library function `strconv.ParseInt(s, 10, 0)` on a 64-bit platform: the
value and the error (`none` for nil). A leading `+` or `-` is picked off, the
rest goes through `ParseUint`; a syntax error gives the value 0, and a value
outside the signed range, also the `1<<64 - 1` of an `ErrRange` of `ParseUint`,
gives the nearest bound and `ErrRange`. -/
def ParseInt (s : List Char) : Int × Option NumError :=
  if s.isEmpty then (0, some NumError.ErrSyntax)
  else
    let neg := s.head? = some '-'
    let body := if s.head? = some '+' ∨ s.head? = some '-' then s.tail else s
    match ParseUint body with
    | .error NumError.ErrSyntax => (0, some NumError.ErrSyntax)
    | .error NumError.ErrRange =>
      if neg then (-9223372036854775808, some NumError.ErrRange)
      else (9223372036854775807, some NumError.ErrRange)
    | .ok un =>
      if ¬ neg ∧ un ≥ 9223372036854775808 then (9223372036854775807, some NumError.ErrRange)
      else if neg ∧ un > 9223372036854775808 then
        (-9223372036854775808, some NumError.ErrRange)
      else if neg then (-(un : Int), none)
      else ((un : Int), none)

/-- The library function `strconv.Atoi` on a 64-bit platform. For the texts
that are too long for its fast path, and the empty one, it is `ParseInt(s, 10,
0)`; on the others (fewer than 19 bytes) the fast path computes what `ParseInt`
computes: sign picked off, `ErrSyntax` with the value 0 on an empty rest or a
byte that is not a digit, the signed value otherwise. -/
def Atoi (s : List Char) : Int × Option NumError :=
  ParseInt s

/-- The error `fmt.Errorf("error parsing raft host %s: %+v", h, err)`. -/
structure ParseHostError where
  h : String
  cause : NumError
  deriving DecidableEq, Repr

/-- The function `parseHost`: the results `host`, `port` and `err`
(`none` for nil). `strings.Index(h, ":")` is the length of the longest
colon-free start of `h` when `h` has a colon and `-1` otherwise. -/
def parseHost (h : String) : String × Int × Option ParseHostError :=
  if ':' ∉ h.data then (h, defaultRaftPort, none)
  else
    let i := (h.data.takeWhile (fun ch => ch ≠ ':')).length
    let host := String.mk (h.data.take i)
    match Atoi (h.data.drop (i + 1)) with
    | (port, none) => (host, port, none)
    | (port, some err) => (host, port, some { h := h, cause := err })

/-- The error returned by `RegisterHost`: the one of `parseHost` or the one of
`newRaftClient`. -/
inductive RegisterError where
  | parse (err : ParseHostError)
  | connect (msg : String)
  deriving DecidableEq, Repr

/-- The assignment `c.hosts[id] = peer`. -/
def setHost (id : String) (peer : RaftPeer) :
    List (String × RaftPeer) → List (String × RaftPeer)
  | [] => [(id, peer)]
  | (k, p) :: rest =>
    if k = id then (k, peer) :: rest else (k, p) :: setHost id peer rest

/-- The method `RaftCluster.RegisterHostWithPort`: the cluster afterwards, or
the error. -/
def RegisterHostWithPort (net : RaftNet) (c : RaftCluster) (id host : String) (port : Int) :
    Except RegisterError RaftCluster :=
  match net.newRaftClient host port with
  | .error msg => .error (RegisterError.connect msg)
  | .ok client =>
    .ok { c with hosts := setHost id { host := host, port := port, client := client } c.hosts }

/-- The method `RaftCluster.RegisterHost`. -/
def RegisterHost (net : RaftNet) (c : RaftCluster) (id host : String) :
    Except RegisterError RaftCluster :=
  match parseHost host with
  | (_, _, some err) => .error (RegisterError.parse err)
  | (h, p, none) => RegisterHostWithPort net c id h p

/-- A decimal integer as a text: an optional sign `+` or `-`, then one or more
of the digits `0` to `9`. -/
def isDecimalInteger (s : List Char) : Prop :=
  ∃ sign digits : List Char, s = sign ++ digits ∧
    (sign = [] ∨ sign = ['-'] ∨ sign = ['+']) ∧
    digits ≠ [] ∧ ∀ ch ∈ digits, 48 ≤ ch.toNat ∧ ch.toNat ≤ 57

end raft

namespace cmd

/-- The struct `meta.EdgeItem`, with the fields the code reads. -/
structure EdgeItem where
  EdgeType : Int
  EdgeName : String
  deriving DecidableEq, Repr

/-- The response `meta.ListEdgesResp`. -/
structure ListEdgesResp where
  Code : Int
  Edges : List EdgeItem
  deriving DecidableEq, Repr

/-- The constant `nebula.ErrorCode_SUCCEEDED`. -/
def ErrorCode_SUCCEEDED : Int := 0

/-- The struct `storage.ScanCursor`; `NextCursor` is `none` for a nil slice. -/
structure ScanCursor where
  HasNext : Bool
  NextCursor : Option String
  deriving DecidableEq, Repr

/-- The request `storage.ScanEdgeRequest` built by `doGetEdges`: `Parts` has the
single key `PartID` with the cursor `Cursor`, `ReturnColumns` the single entry of
type `EdgeType` with `Props`. -/
structure ScanEdgeRequest where
  Limit : Int
  SpaceID : Int
  PartID : Int
  Cursor : ScanCursor
  EdgeType : Int
  Props : List String
  deriving DecidableEq, Repr

/-- The response of `client.ScanEdge`: the rows of `resp.GetProps()` and the
entry `resp.Cursors[globalPartitionID]` (`none` when the map has none). -/
structure ScanEdgeResponse where
  Rows : List (List Value)
  Cursor : Option ScanCursor
  deriving DecidableEq, Repr

/-- The calls `doGetEdges` makes to the outside, in the order it makes them. -/
inductive Call where
  | newMetaClient (addr : String)
  | listEdges (spaceID : Int)
  | getLeader
  | newNebulaConn (addr : String)
  | scanEdge (req : ScanEdgeRequest)
  deriving DecidableEq, Repr

/-- How a run of `doGetEdges` ends: with its return values, with the process
terminated (`glog.Fatal` or a panic), or still in the scan loop after the
iterations the model was given. -/
inductive Outcome where
  | returned (result : Except String (List Edge))
  | aborted
  | unfinished
  deriving Repr

/-- The outside of `doGetEdges`: the globals `globalSpaceID` and
`globalPartitionID`, the results of `gonebula.NewMetaClient` and of
`client.ListEdges`, of `raftCluster.GetLeader()`, of `newNebulaConn`, and of the
`n`-th call of `client.ScanEdge` for a request. -/
structure ScanEnv where
  globalSpaceID : Int
  globalPartitionID : Int
  newMetaClient : Except String Unit
  listEdges : Except String ListEdgesResp
  getLeader : Except String String
  newNebulaConn : String → Except String Unit
  scanEdge : Nat → ScanEdgeRequest → Except String ScanEdgeResponse

/-- The loop of `getEdgeItem` over `resp.GetEdges()` (lines 78-85). -/
def findEdgeItem (edgeName : String) : List EdgeItem → Option EdgeItem
  | [] => none
  | item :: rest => if item.EdgeName = edgeName then some item else findEdgeItem edgeName rest

/-- The function `getEdgeItem`: the item or nil; the outer `none` is a
`glog.Fatal`. -/
def getEdgeItem (env : ScanEnv) (edgeName : String) : Option (Option EdgeItem) :=
  match env.newMetaClient with
  | .error _ => none
  | .ok _ =>
    match env.listEdges with
    | .error _ => none
    | .ok resp =>
      if resp.Code ≠ ErrorCode_SUCCEEDED then none
      else some (findEdgeItem edgeName resp.Edges)

/-- The calls made by `getEdgeItem`. -/
def getEdgeItemCalls (env : ScanEnv) : List Call :=
  match env.newMetaClient with
  | .error _ => [Call.newMetaClient "meta1:9559"]
  | .ok _ => [Call.newMetaClient "meta1:9559", Call.listEdges env.globalSpaceID]

/-- The loop over `ds.GetRows()` (lines 202-221): every row decoded and
appended to `edges`; `none` when a row makes the code panic. -/
def decodeRows (reverse : Bool) : List (List Value) → List Edge → Option (List Edge)
  | [], edges => some edges
  | r :: rows, edges =>
    match decodeRow reverse r with
    | none => none
    | some edge => decodeRows reverse rows (edges ++ [edge])

/-- The request of lines 179-194 for a cursor. -/
def scanRequest (env : ScanEnv) (edgeType : Int) (nextCursor : Option String) :
    ScanEdgeRequest :=
  { Limit := 4096
    SpaceID := env.globalSpaceID
    PartID := env.globalPartitionID
    Cursor := { HasNext := nextCursor.isSome, NextCursor := nextCursor }
    EdgeType := edgeType
    Props := ["_src", "_type", "_rank", "_dst", "idx", "ts"] }

/-- The scan loop of `doGetEdges` (lines 178-229): `n` counts the calls of
`ScanEdge` made so far, `calls` lists all calls made so far. The Go loop has no
bound; the first argument is the number of iterations the model runs. -/
def scanLoop (env : ScanEnv) (edgeType : Int) (reverse : Bool) :
    Nat → Nat → Option String → List Edge → List Call → List Call × Outcome
  | 0, _, _, _, calls => (calls, Outcome.unfinished)
  | fuel + 1, n, nextCursor, edges, calls =>
    let req := scanRequest env edgeType nextCursor
    let calls := calls ++ [Call.scanEdge req]
    match env.scanEdge n req with
    | .error _ => (calls, Outcome.aborted)
    | .ok resp =>
      match decodeRows reverse resp.Rows edges with
      | none => (calls, Outcome.aborted)
      | some edges =>
        match resp.Cursor with
        | none => (calls, Outcome.aborted)
        | some cursor =>
          if !cursor.HasNext then (calls, Outcome.returned (.ok edges))
          else scanLoop env edgeType reverse fuel (n + 1) cursor.NextCursor edges calls

/-- The negation of an `int32`. -/
def negInt32 (x : Int) : Int :=
  if x = -2147483648 then x else -x

/-- The function `doGetEdges`: the calls it makes and how it ends, for a number
`fuel` of iterations of the scan loop. -/
def doGetEdges (env : ScanEnv) (edgeName : String) (reverse : Bool) (fuel : Nat) :
    List Call × Outcome :=
  match getEdgeItem env edgeName with
  | none => (getEdgeItemCalls env, Outcome.aborted)
  | some none => (getEdgeItemCalls env, Outcome.returned (.error "edge item is nil"))
  | some (some edgeItem) =>
    let edgeType := if reverse then negInt32 edgeItem.EdgeType else edgeItem.EdgeType
    let calls := getEdgeItemCalls env ++ [Call.getLeader]
    match env.getLeader with
    | .error err => (calls, Outcome.returned (.error err))
    | .ok leader =>
      let addr := leader ++ ":9779"
      let calls := calls ++ [Call.newNebulaConn addr]
      match env.newNebulaConn addr with
      | .error err => (calls, Outcome.returned (.error err))
      | .ok _ => scanLoop env edgeType reverse fuel 0 none [] calls

end cmd

/-! ## Concrete inputs -/

namespace raft

/-- Peer `A`. -/
def peerA : String × RaftPeer := ("A", { host := "hostA", port := 9780, client := 1 })

/-- Peer `B`. -/
def peerB : String × RaftPeer := ("B", { host := "hostB", port := 9780, client := 2 })

/-- Peer `C`. -/
def peerC : String × RaftPeer := ("C", { host := "hostC", port := 9780, client := 3 })

/-- A(term 5, leader), B(term 7, leader), every other peer (term 3, not leader). -/
def netABC : RaftNet where
  getState := fun id =>
    if id = "A" then .ok { ErrorCode := 0, IsLeader := true, Term := 5 }
    else if id = "B" then .ok { ErrorCode := 0, IsLeader := true, Term := 7 }
    else .ok { ErrorCode := 0, IsLeader := false, Term := 3 }
  newRaftClient := fun _ _ => .ok 9

/-- Every peer answers (term 0, leader). -/
def netZeroTerm : RaftNet where
  getState := fun _ => .ok { ErrorCode := 0, IsLeader := true, Term := 0 }
  newRaftClient := fun _ _ => .ok 9

/-- Every peer answers (term 5, leader): a tie. -/
def netTie : RaftNet where
  getState := fun _ => .ok { ErrorCode := 0, IsLeader := true, Term := 5 }
  newRaftClient := fun _ _ => .ok 9

/-- Every peer answers (term 5, not leader). -/
def netNoLeader : RaftNet where
  getState := fun _ => .ok { ErrorCode := 0, IsLeader := false, Term := 5 }
  newRaftClient := fun _ _ => .ok 9

/-- A cluster of the three peers with an empty leader cache. -/
def clusterABC : RaftCluster :=
  { hosts := [peerA, peerB, peerC], leader := "", spaceID := 1, partID := 1 }

/-- A cluster of the peers A and B with a given leader cache. -/
def clusterAB (leader : String) : RaftCluster :=
  { hosts := [peerA, peerB], leader := leader, spaceID := 1, partID := 1 }

/-- A cluster of the single peer A with an empty leader cache. -/
def clusterA : RaftCluster :=
  { hosts := [peerA], leader := "", spaceID := 1, partID := 1 }

end raft

namespace cmd

/-- Whether a logged line is a mismatch report for the key `k`. -/
def LogLine.isMismatchAt (k : String) : LogLine → Bool
  | .mismatch outEdge _ => decide (outEdge.Key = k)
  | _ => false

/-- A timestamp. -/
def ts1 : DateTime :=
  { Year := 2021, Month := 9, Day := 1, Hour := 12, Minute := 0, Sec := 0, Microsec := 0 }

/-- The edge (1, 2, 0) with attribute `idx1` and timestamp `ts1`. -/
def edge120 : Edge := { src := 1, dst := 2, rank := 0, idx := "idx1", ts := some ts1 }

/-- The edge (1, 2, 0) with attribute `idx2` and timestamp `ts1`. -/
def edge120b : Edge := { src := 1, dst := 2, rank := 0, idx := "idx2", ts := some ts1 }

/-- The edge (3, 4, 1) with attribute `idx3` and no timestamp. -/
def edge341 : Edge := { src := 3, dst := 4, rank := 1, idx := "idx3", ts := none }

/-- A scan that returns `out` forward and `inn` in reverse. -/
def scanOf (out inn : List Edge) : Bool → Except String (List Edge) :=
  fun reverse => if reverse then .ok inn else .ok out

/-- An integer column. -/
def intCol (i : Int) : Value := { IVal := some i, SVal := none, DtVal := none }

/-- A string column. -/
def strCol (s : String) : Value := { IVal := none, SVal := some s, DtVal := none }

/-- A null column. -/
def nullCol : Value := { IVal := none, SVal := none, DtVal := none }

end cmd

namespace raft

/-- A answers (term 5, leader); every other peer answers at the transport level
with the application error code -1. -/
def netBadCode : RaftNet where
  getState := fun id =>
    if id = "A" then .ok { ErrorCode := 0, IsLeader := true, Term := 5 }
    else .ok { ErrorCode := -1, IsLeader := true, Term := 9 }
  newRaftClient := fun _ _ => .ok 9

/-- A answers (term 5, leader); the call to every other peer fails with a
timeout, and no reconnect succeeds. -/
def netTimeout : RaftNet where
  getState := fun id =>
    if id = "A" then .ok { ErrorCode := 0, IsLeader := true, Term := 5 }
    else .error "read tcp 10.0.0.2:9780: i/o timeout"
  newRaftClient := fun _ _ => .error "connection refused"

end raft

namespace cmd

/-- A scan server given as a finite sequence of pages: the call number `i`
is answered with the rows of page `i`, "has more" and the cursor of page `i`
for the pages of `pages`, with the rows and the cursor of `last` and no "has
more" for the page after them, and with an error beyond. -/
def pagesServer (pages : List (List (List Value) × String))
    (last : List (List Value) × Option String) :
    Nat → ScanEdgeRequest → Except String ScanEdgeResponse :=
  fun i _ =>
    match pages[i]? with
    | some page =>
      .ok { Rows := page.1, Cursor := some { HasNext := true, NextCursor := some page.2 } }
    | none =>
      if i = pages.length then
        .ok { Rows := last.1, Cursor := some { HasNext := false, NextCursor := last.2 } }
      else .error "no such page"

/-- A space with the edge types `known1` (5) and `known2` (7, and once more as
8), the leader `store1`, and a scan server of `pages` and `last`. -/
def envOf (pages : List (List (List Value) × String))
    (last : List (List Value) × Option String) : ScanEnv where
  globalSpaceID := 1
  globalPartitionID := 1
  newMetaClient := .ok ()
  listEdges := .ok { Code := 0, Edges := [⟨5, "known1"⟩, ⟨7, "known2"⟩, ⟨8, "known2"⟩] }
  getLeader := .ok "store1"
  newNebulaConn := fun _ => .ok ()
  scanEdge := pagesServer pages last

/-- A scanned row of the edge from `src` to `dst` with rank 0. -/
def rowOf (src dst : Int) : List Value :=
  [intCol src, intCol 7, intCol 0, intCol dst, strCol "x", nullCol]

end cmd

namespace raft

/-- A and B answer (term 5, leader), a tie; the call to every other peer fails
with a timeout. -/
def netTieTimeout : RaftNet where
  getState := fun id =>
    if id = "A" ∨ id = "B" then .ok { ErrorCode := 0, IsLeader := true, Term := 5 }
    else .error "read tcp 10.0.0.3:9780: i/o timeout"
  newRaftClient := fun _ _ => .ok 9

/-- The call to A fails with a timeout; the call to every other peer fails with
an error that is not classified as transient. -/
def netTimeoutRefused : RaftNet where
  getState := fun id =>
    if id = "A" then .error "read tcp 10.0.0.1:9780: i/o timeout"
    else .error "dial tcp 10.0.0.2:9780: connect: connection refused"
  newRaftClient := fun _ _ => .ok 9

end raft

/-! ## The leader cache -/

namespace raft

/-- A refresh in which every visited peer answers with the success code runs to
the end of the loop. -/
theorem doGetLeaderLoop_completes (net : RaftNet) :
    ∀ (order : List (String × RaftPeer)) (c : RaftCluster) (t : Int),
      (∀ p ∈ order, ∃ r, net.getState p.1 = .ok r ∧ r.ErrorCode = ErrorCode_SUCCEEDED) →
      ∃ c', doGetLeaderLoop net order c t = some c' := by
  intro order
  induction order with
  | nil => intro c t _; exact ⟨c, rfl⟩
  | cons p rest ih =>
    intro c t h
    obtain ⟨id, inst⟩ := p
    obtain ⟨r, hr, hc⟩ := h (id, inst) (List.mem_cons_self _ _)
    have hrest : ∀ p ∈ rest, ∃ r, net.getState p.1 = .ok r ∧ r.ErrorCode = ErrorCode_SUCCEEDED :=
      fun p hp => h p (List.mem_cons_of_mem _ hp)
    simp only [doGetLeaderLoop]
    simp only [] at hr
    rw [hr]
    simp only [hc, ne_eq, not_true_eq_false, if_false]
    split
    · split
      · exact ih _ _ hrest
      · exact ih _ _ hrest
    · exact ih _ _ hrest

/-- A refresh in which every visited peer answers with the success code or
fails with a transient error runs to the end of the loop. -/
theorem doGetLeaderLoop_completes_of_recoverable (net : RaftNet) :
    ∀ (order : List (String × RaftPeer)) (c : RaftCluster) (t : Int),
      (∀ p ∈ order,
        (∃ r, net.getState p.1 = .ok r ∧ r.ErrorCode = ErrorCode_SUCCEEDED) ∨
        (∃ m, net.getState p.1 = .error m ∧ isTransient m = true)) →
      ∃ c', doGetLeaderLoop net order c t = some c' := by
  intro order
  induction order with
  | nil => intro c t _; exact ⟨c, rfl⟩
  | cons p rest ih =>
    intro c t h
    obtain ⟨id, inst⟩ := p
    have hrest : ∀ p ∈ rest,
        (∃ r, net.getState p.1 = .ok r ∧ r.ErrorCode = ErrorCode_SUCCEEDED) ∨
        (∃ m, net.getState p.1 = .error m ∧ isTransient m = true) :=
      fun p hp => h p (List.mem_cons_of_mem _ hp)
    simp only [doGetLeaderLoop]
    rcases h (id, inst) (List.mem_cons_self _ _) with ⟨r, hr, hc⟩ | ⟨m, hm, htr⟩
    · simp only [] at hr
      rw [hr]
      simp only [hc, ne_eq, not_true_eq_false, if_false]
      split
      · split
        · exact ih _ _ hrest
        · exact ih _ _ hrest
      · exact ih _ _ hrest
    · simp only [] at hm
      rw [hm]
      simp only [htr, if_true]
      split
      · exact ih _ _ hrest
      · exact ih _ _ hrest

/-- What a completed run of the loop leaves in the cache: the cache is
untouched when no visited peer claims leadership with a term above the starting
`leaderTerm`; otherwise it holds the first visited peer among those claiming
leadership with the highest term. -/
theorem doGetLeaderLoop_leader (net : RaftNet) :
    ∀ (order : List (String × RaftPeer)) (c : RaftCluster) (t : Int) (c' : RaftCluster),
      doGetLeaderLoop net order c t = some c' →
      (c'.leader = c.leader ∧
        ∀ p ∈ order, ∀ r, net.getState p.1 = .ok r → r.IsLeader = true → r.Term ≤ t) ∨
      (∃ pre id inst post r, order = pre ++ (id, inst) :: post ∧
        net.getState id = .ok r ∧ r.IsLeader = true ∧ t < r.Term ∧ c'.leader = id ∧
        (∀ p ∈ pre, ∀ r', net.getState p.1 = .ok r' → r'.IsLeader = true → r'.Term < r.Term) ∧
        (∀ p ∈ post, ∀ r', net.getState p.1 = .ok r' → r'.IsLeader = true → r'.Term ≤ r.Term)) := by
  intro order
  induction order with
  | nil =>
    intro c t c' h
    simp only [doGetLeaderLoop, Option.some.injEq] at h
    subst h
    exact Or.inl ⟨rfl, fun p hp => absurd hp (List.not_mem_nil _)⟩
  | cons p rest ih =>
    intro c t c' h
    obtain ⟨id, inst⟩ := p
    simp only [doGetLeaderLoop] at h
    -- every branch that keeps the candidate continues on `rest` with the same term
    have key : ∀ (c₁ : RaftCluster) (t₁ : Int), c₁.leader = c.leader → t₁ = t →
        (∀ r, net.getState id = .ok r → r.IsLeader = true → r.Term ≤ t) →
        doGetLeaderLoop net rest c₁ t₁ = some c' →
        (c'.leader = c.leader ∧
          ∀ p ∈ (id, inst) :: rest, ∀ r,
            net.getState p.1 = .ok r → r.IsLeader = true → r.Term ≤ t) ∨
        (∃ pre id' inst' post r, (id, inst) :: rest = pre ++ (id', inst') :: post ∧
          net.getState id' = .ok r ∧ r.IsLeader = true ∧ t < r.Term ∧ c'.leader = id' ∧
          (∀ p ∈ pre, ∀ r', net.getState p.1 = .ok r' → r'.IsLeader = true → r'.Term < r.Term) ∧
          (∀ p ∈ post, ∀ r', net.getState p.1 = .ok r' → r'.IsLeader = true →
            r'.Term ≤ r.Term)) := by
      intro c₁ t₁ hl ht hhead hrun
      subst ht
      rcases ih c₁ t₁ c' hrun with
        ⟨h1, h2⟩ | ⟨pre, id', inst', post, r, hsplit, hr, hlead, hlt, hc', hpre, hpost⟩
      · left
        refine ⟨h1.trans hl, ?_⟩
        intro p hp r hr hlead
        rcases List.mem_cons.1 hp with rfl | hp
        · exact hhead r hr hlead
        · exact h2 p hp r hr hlead
      · right
        refine ⟨(id, inst) :: pre, id', inst', post, r, by rw [hsplit]; rfl,
          hr, hlead, hlt, hc', ?_, hpost⟩
        intro p hp r' hr' hlead'
        rcases List.mem_cons.1 hp with rfl | hp
        · exact lt_of_le_of_lt (hhead r' hr' hlead') hlt
        · exact hpre p hp r' hr' hlead'
    cases hgs : net.getState id with
    | error msg =>
      rw [hgs] at h
      simp only [] at h
      have hhead : ∀ r, net.getState id = .ok r → r.IsLeader = true → r.Term ≤ t := by
        intro r hr; rw [hgs] at hr; cases hr
      split at h
      · split at h
        · refine key _ _ ?_ rfl hhead h
          rfl
        · exact key _ _ rfl rfl hhead h
      · cases h
    | ok resp =>
      rw [hgs] at h
      simp only [] at h
      split at h
      · cases h
      · split at h
        · rename_i hlead
          split at h
          · rename_i hgt
            -- the head becomes the candidate
            rcases ih _ _ c' h with
              ⟨h1, h2⟩ | ⟨pre, id', inst', post, r, hsplit, hr, hlead', hlt, hc', hpre, hpost⟩
            · right
              exact ⟨[], id, inst, rest, resp, rfl, hgs, hlead, hgt, h1,
                fun p hp => absurd hp (List.not_mem_nil _), h2⟩
            · right
              refine ⟨(id, inst) :: pre, id', inst', post, r, by rw [hsplit]; rfl, hr, hlead',
                lt_trans hgt hlt, hc', ?_, hpost⟩
              intro p hp r' hr' hl'
              rcases List.mem_cons.1 hp with rfl | hp
              · rw [hgs] at hr'; cases hr'; exact hlt
              · exact hpre p hp r' hr' hl'
          · rename_i hngt
            refine key _ _ rfl rfl ?_ h
            intro r hr _
            rw [hgs] at hr; cases hr
            exact not_lt.1 hngt
        · rename_i hnl
          refine key _ _ rfl rfl ?_ h
          intro r hr hl
          rw [hgs] at hr; cases hr
          exact absurd hl hnl

end raft

namespace raft

/-- C1 (amended): when every registered peer answers successfully, at least one
peer reports `is_leader = true`, exactly one such peer attains the maximum term
and that term is positive, a refresh leaves the cached leader equal to that
peer's id, whatever the cached leader was before and in whatever order the
peers are visited. -/
theorem doGetLeader_unique_max (net : RaftNet) (c : RaftCluster)
    (order : List (String × RaftPeer)) (hperm : order.Perm c.hosts)
    (hok : ∀ p ∈ c.hosts, ∃ r, net.getState p.1 = .ok r ∧ r.ErrorCode = ErrorCode_SUCCEEDED)
    (id : String) (r : GetStateResp) (hid : id ∈ c.hosts.map Prod.fst)
    (hr : net.getState id = .ok r) (hlead : r.IsLeader = true) (hpos : 0 < r.Term)
    (hmax : ∀ q ∈ c.hosts, q.1 ≠ id → ∀ r', net.getState q.1 = .ok r' →
      r'.IsLeader = true → r'.Term < r.Term) :
    ∃ c', doGetLeader net order c = some c' ∧ c'.leader = id := by
  have hok' : ∀ p ∈ order, ∃ r, net.getState p.1 = .ok r ∧ r.ErrorCode = ErrorCode_SUCCEEDED :=
    fun p hp => hok p (hperm.subset hp)
  obtain ⟨c', hc'⟩ := doGetLeaderLoop_completes net order c 0 hok'
  refine ⟨c', hc', ?_⟩
  obtain ⟨p0, hp0, hp0id⟩ := List.mem_map.1 hid
  have hp0o : p0 ∈ order := hperm.symm.subset hp0
  rcases doGetLeaderLoop_leader net order c 0 c' hc' with
    ⟨_, h2⟩ | ⟨pre, id', inst', post, r', hsplit, hr', hlead', _, hcl, hpre, hpost⟩
  · have := h2 p0 hp0o r (by rw [hp0id]; exact hr) hlead
    exact absurd hpos (not_lt.2 this)
  · rw [hcl]
    by_contra hne
    have hmem' : (id', inst') ∈ c.hosts := hperm.subset (by rw [hsplit]; simp)
    have hlt : r'.Term < r.Term := hmax (id', inst') hmem' hne r' hr' hlead'
    rw [hsplit] at hp0o
    rcases List.mem_append.1 hp0o with hin | hin
    · have := hpre p0 hin r (by rw [hp0id]; exact hr) hlead
      exact absurd hlt (not_lt.2 (le_of_lt this))
    · rcases List.mem_cons.1 hin with heq | hin
      · apply hne
        rw [← hp0id, heq]
      · have := hpost p0 hin r (by rw [hp0id]; exact hr) hlead
        exact absurd hlt (not_lt.2 this)

/-- Witness of C1: A(term 5, leader), B(term 7, leader), C(term 3, not leader),
visited in the order C, A, B, resolves to B. -/
theorem doGetLeader_unique_max_witness :
    ∃ c', doGetLeader netABC [peerC, peerA, peerB] clusterABC = some c' ∧ c'.leader = "B" :=
  doGetLeader_unique_max netABC clusterABC [peerC, peerA, peerB] (by decide)
    (by
      intro p hp
      simp only [clusterABC, List.mem_cons, List.mem_singleton, List.not_mem_nil, or_false] at hp
      rcases hp with rfl | rfl | rfl
      · exact ⟨_, rfl, rfl⟩
      · exact ⟨_, rfl, rfl⟩
      · exact ⟨_, rfl, rfl⟩)
    "B" { ErrorCode := 0, IsLeader := true, Term := 7 } (by decide) rfl rfl (by decide)
    (by
      intro q hq hne r' hr' hl'
      simp only [clusterABC, List.mem_cons, List.mem_singleton, List.not_mem_nil, or_false] at hq
      rcases hq with rfl | rfl | rfl
      · cases hr'; decide
      · exact absurd rfl hne
      · cases hr'; cases hl')

/-- Counterexample to C1 as stated: the single peer A reports (term 0, leader),
so A is the one peer with the maximum term among the leaders, yet the refresh
leaves the empty cache empty. -/
theorem doGetLeader_zero_term_counterexample :
    ¬ (∀ (net : RaftNet) (c : RaftCluster) (order : List (String × RaftPeer)),
        order.Perm c.hosts →
        (∀ p ∈ c.hosts, ∃ r, net.getState p.1 = .ok r ∧ r.ErrorCode = ErrorCode_SUCCEEDED) →
        ∀ (id : String) (r : GetStateResp), id ∈ c.hosts.map Prod.fst →
          net.getState id = .ok r → r.IsLeader = true →
          (∀ q ∈ c.hosts, q.1 ≠ id → ∀ r', net.getState q.1 = .ok r' →
            r'.IsLeader = true → r'.Term < r.Term) →
          ∃ c', doGetLeader net order c = some c' ∧ c'.leader = id) := by
  intro h
  have hrun : doGetLeader netZeroTerm [peerA] clusterA = some clusterA := by decide
  obtain ⟨c', h1, h2⟩ := h netZeroTerm clusterA [peerA] (List.Perm.refl _)
    (fun p _ => ⟨_, rfl, rfl⟩) "A" { ErrorCode := 0, IsLeader := true, Term := 0 }
    (by decide) rfl rfl
    (by
      intro q hq hne
      simp only [clusterA, List.mem_singleton] at hq
      subst hq
      exact absurd rfl hne)
  rw [hrun] at h1
  cases h1
  revert h2
  decide

end raft

namespace raft

/-- Two ways of cutting one visiting order around a peer: the cut peers are the
same one, or one of them lies strictly before the other. -/
theorem split_cases {α : Type} (pre post pre' post' : List α) (x x' : α)
    (h : pre ++ x :: post = pre' ++ x' :: post') :
    (x = x') ∨ (x' ∈ pre ∧ x ∈ post') ∨ (x ∈ pre' ∧ x' ∈ post) := by
  rcases List.append_eq_append_iff.1 h with ⟨a, ha, hb⟩ | ⟨a, ha, hb⟩
  · -- pre' = pre ++ a
    cases a with
    | nil =>
      simp only [List.nil_append, List.cons.injEq] at hb
      exact Or.inl hb.1
    | cons y a =>
      simp only [List.cons_append, List.cons.injEq] at hb
      right; right
      refine ⟨?_, ?_⟩
      · rw [ha, hb.1]; simp
      · rw [hb.2]; simp
  · -- pre = pre' ++ a
    cases a with
    | nil =>
      simp only [List.nil_append, List.cons.injEq] at hb
      exact Or.inl hb.1.symm
    | cons y a =>
      simp only [List.cons_append, List.cons.injEq] at hb
      right; left
      refine ⟨?_, ?_⟩
      · rw [ha, hb.1]; simp
      · rw [hb.2]; simp

/-- C2 (amended): when two or more peers report `is_leader = true` with the same
maximum term, a positive one, every refresh that runs to completion caches the
first of them in the order in which the peers are visited: the peer `id`, before
which every leader has a smaller term and after which no leader has a larger
one. The refresh runs to completion whenever every peer answers with the success
code or fails with a transient error. -/
theorem doGetLeader_tie_first_visited (net : RaftNet) (c : RaftCluster)
    (pre post : List (String × RaftPeer)) (id : String) (inst : RaftPeer) (r : GetStateResp)
    (hperm : (pre ++ (id, inst) :: post).Perm c.hosts)
    (hr : net.getState id = .ok r) (hlead : r.IsLeader = true) (hpos : 0 < r.Term)
    (htie : ∃ q ∈ post, ∃ rq, net.getState q.1 = .ok rq ∧ rq.IsLeader = true ∧ rq.Term = r.Term)
    (hpre : ∀ p ∈ pre, ∀ r', net.getState p.1 = .ok r' → r'.IsLeader = true → r'.Term < r.Term)
    (hpost : ∀ p ∈ post, ∀ r', net.getState p.1 = .ok r' → r'.IsLeader = true →
      r'.Term ≤ r.Term) :
    (∀ c', doGetLeader net (pre ++ (id, inst) :: post) c = some c' → c'.leader = id) ∧
    ((∀ p ∈ c.hosts,
        (∃ r', net.getState p.1 = .ok r' ∧ r'.ErrorCode = ErrorCode_SUCCEEDED) ∨
        (∃ m, net.getState p.1 = .error m ∧ isTransient m = true)) →
      ∃ c', doGetLeader net (pre ++ (id, inst) :: post) c = some c') := by
  constructor
  · intro c' hc'
    obtain ⟨q, _, rq, _, _, _⟩ := htie
    rcases doGetLeaderLoop_leader net _ c 0 c' hc' with
      ⟨_, h2⟩ | ⟨pre', id', inst', post', r', hsplit, hr', hlead', _, hcl, hpre', hpost'⟩
    · have := h2 (id, inst) (by simp) r hr hlead
      exact absurd hpos (not_lt.2 this)
    · rw [hcl]
      rcases split_cases pre post pre' post' (id, inst) (id', inst') hsplit with
        heq | ⟨h1, h2⟩ | ⟨h1, h2⟩
      · exact (congrArg Prod.fst heq).symm
      · have a := hpre (id', inst') h1 r' hr' hlead'
        have b := hpost' (id, inst) h2 r hr hlead
        exact absurd a (not_lt.2 b)
      · have a := hpre' (id, inst) h1 r hr hlead
        have b := hpost (id', inst') h2 r' hr' hlead'
        exact absurd a (not_lt.2 b)
  · intro hrec
    exact doGetLeaderLoop_completes_of_recoverable net _ c 0
      (fun p hp => hrec p (hperm.subset hp))

/-- Witness of C2: A and B both report (term 5, leader) and the call to C fails
with a timeout; visited in the order C, B, A the refresh completes and caches
B. -/
theorem doGetLeader_tie_first_visited_witness :
    ∃ c', doGetLeader netTieTimeout ([peerC] ++ peerB :: [peerA]) clusterABC = some c' ∧
      c'.leader = "B" := by
  have h := doGetLeader_tie_first_visited netTieTimeout clusterABC [peerC] [peerA] "B" peerB.2
    { ErrorCode := 0, IsLeader := true, Term := 5 } (by decide) rfl rfl (by decide)
    ⟨peerA, by simp, _, rfl, rfl, rfl⟩
    (by
      intro p hp r' hr' _
      simp only [List.mem_singleton] at hp
      subst hp
      cases hr')
    (by
      intro p hp r' hr' _
      simp only [List.mem_singleton] at hp
      subst hp
      cases hr'
      decide)
  obtain ⟨c', hc'⟩ := h.2 (by
    intro p hp
    simp only [clusterABC, List.mem_cons, List.mem_singleton, List.not_mem_nil, or_false] at hp
    rcases hp with rfl | rfl | rfl
    · exact Or.inl ⟨_, rfl, rfl⟩
    · exact Or.inl ⟨_, rfl, rfl⟩
    · exact Or.inr ⟨_, rfl, by decide⟩)
  exact ⟨c', hc', h.1 c' hc'⟩

/-- Counterexample to C2 as stated: A and B both report (term 5, leader); the
refresh that visits A first caches A, the one that visits B first caches B. -/
theorem doGetLeader_tie_order_counterexample :
    ¬ (∀ (net : RaftNet) (c : RaftCluster) (o₁ o₂ : List (String × RaftPeer)),
        o₁.Perm c.hosts → o₂.Perm c.hosts →
        (∀ p ∈ c.hosts, ∃ r, net.getState p.1 = .ok r ∧ r.ErrorCode = ErrorCode_SUCCEEDED) →
        (∃ p ∈ c.hosts, ∃ q ∈ c.hosts, p.1 ≠ q.1 ∧ ∃ rp rq,
          net.getState p.1 = .ok rp ∧ net.getState q.1 = .ok rq ∧
          rp.IsLeader = true ∧ rq.IsLeader = true ∧ rp.Term = rq.Term ∧
          ∀ x ∈ c.hosts, ∀ rx, net.getState x.1 = .ok rx → rx.IsLeader = true →
            rx.Term ≤ rp.Term) →
        (doGetLeader net o₁ c).map (fun c' => c'.leader) =
          (doGetLeader net o₂ c).map (fun c' => c'.leader)) := by
  intro h
  have := h netTie (clusterAB "") [peerA, peerB] [peerB, peerA] (by decide) (by decide)
    (fun _ _ => ⟨_, rfl, rfl⟩)
    ⟨peerA, by decide, peerB, by decide, by decide, _, _, rfl, rfl, rfl, rfl, rfl,
      by
        intro x _ rx hrx _
        cases hrx
        decide⟩
  revert this
  decide

/-- C3 (amended): after a completed refresh the cached leader is either the one
cached before the refresh, which happens when no peer reported
`is_leader = true` with a positive term, or the id of a peer that reported
`is_leader = true` in that refresh with a positive term, the highest among the
peers that reported leadership. -/
theorem doGetLeader_cache_after_refresh (net : RaftNet) (c c' : RaftCluster)
    (order : List (String × RaftPeer)) (hperm : order.Perm c.hosts)
    (hrun : doGetLeader net order c = some c') :
    (c'.leader = c.leader ∧
      ∀ p ∈ c.hosts, ∀ r, net.getState p.1 = .ok r → r.IsLeader = true → r.Term ≤ 0) ∨
    (∃ p ∈ c.hosts, ∃ r, c'.leader = p.1 ∧ net.getState p.1 = .ok r ∧ r.IsLeader = true ∧
      0 < r.Term ∧
      ∀ q ∈ c.hosts, ∀ r', net.getState q.1 = .ok r' → r'.IsLeader = true →
        r'.Term ≤ r.Term) := by
  rcases doGetLeaderLoop_leader net order c 0 c' hrun with
    ⟨h1, h2⟩ | ⟨pre, id, inst, post, r, hsplit, hr, hlead, hlt, hcl, hpre, hpost⟩
  · exact Or.inl ⟨h1, fun p hp => h2 p (hperm.symm.subset hp)⟩
  · right
    refine ⟨(id, inst), hperm.subset (by rw [hsplit]; simp), r, hcl, hr, hlead, hlt, ?_⟩
    intro q hq r' hr' hl'
    have hq' : q ∈ order := hperm.symm.subset hq
    rw [hsplit] at hq'
    rcases List.mem_append.1 hq' with hin | hin
    · exact le_of_lt (hpre q hin r' hr' hl')
    · rcases List.mem_cons.1 hin with heq | hin
      · rw [heq] at hr'
        simp only [] at hr'
        rw [hr] at hr'
        cases hr'
        exact le_refl _
      · exact hpost q hin r' hr' hl'

/-- Witness of C3: the refresh over A(5, leader), B(7, leader), C(3, not leader)
from an empty cache. -/
theorem doGetLeader_cache_after_refresh_witness :
    (({ clusterABC with leader := "B" } : RaftCluster).leader = clusterABC.leader ∧
      ∀ p ∈ clusterABC.hosts, ∀ r, netABC.getState p.1 = .ok r → r.IsLeader = true →
        r.Term ≤ 0) ∨
    (∃ p ∈ clusterABC.hosts, ∃ r,
      ({ clusterABC with leader := "B" } : RaftCluster).leader = p.1 ∧
      netABC.getState p.1 = .ok r ∧ r.IsLeader = true ∧ 0 < r.Term ∧
      ∀ q ∈ clusterABC.hosts, ∀ r', netABC.getState q.1 = .ok r' → r'.IsLeader = true →
        r'.Term ≤ r.Term) :=
  doGetLeader_cache_after_refresh netABC clusterABC { clusterABC with leader := "B" }
    [peerA, peerB, peerC] (by decide) (by decide)

/-- Counterexample to C3 as stated: the cache holds A from an earlier refresh
and in this refresh A and B both report (term 5, not leader); the refresh
completes and the cache still holds A. -/
theorem doGetLeader_cache_kept_counterexample :
    ¬ (∀ (net : RaftNet) (c c' : RaftCluster) (order : List (String × RaftPeer)),
        order.Perm c.hosts → doGetLeader net order c = some c' →
        c'.leader = "" ∨
        (∃ p ∈ c.hosts, ∃ r, c'.leader = p.1 ∧ net.getState p.1 = .ok r ∧
          r.IsLeader = true ∧
          ∀ q ∈ c.hosts, ∀ r', net.getState q.1 = .ok r' → r'.IsLeader = true →
            r'.Term ≤ r.Term)) := by
  intro h
  rcases h netNoLeader (clusterAB "A") (clusterAB "A") [peerA, peerB] (by decide) (by decide) with
    h1 | ⟨p, _, r, _, hr, hl, _⟩
  · revert h1
    decide
  · cases hr
    cases hl

end raft

namespace raft

/-- A caller that only ever reads an empty cache, or reads nothing because the
process is gone, does not reach the `return` of `GetLeader`, however long it
polls. -/
theorem GetLeaderPoll_empty (seen : Nat → Option String)
    (h : ∀ i, seen i = none ∨ seen i = some "") :
    ∀ (fuel i : Nat), GetLeaderPoll seen fuel i = none := by
  intro fuel
  induction fuel with
  | zero => intro i; rfl
  | succ n ih =>
    intro i
    simp only [GetLeaderPoll]
    rcases h i with hs | hs
    · rw [hs]
    · rw [hs]
      simpa using ih (i + 1)

/-- Whatever `GetLeader` returns, it returns with a nil error and a non-empty
leader. -/
theorem GetLeaderPoll_result (seen : Nat → Option String) :
    ∀ (fuel i : Nat) (leader : String) (err : Option String),
      GetLeaderPoll seen fuel i = some (leader, err) → err = none ∧ leader ≠ "" := by
  intro fuel
  induction fuel with
  | zero => intro i leader err h; cases h
  | succ n ih =>
    intro i leader err h
    simp only [GetLeaderPoll] at h
    split at h
    · cases h
    · split at h
      · rename_i hne
        cases h
        exact ⟨rfl, hne⟩
      · exact ih _ _ _ h

/-- C4 (the code at the failing inputs): when the cached leader is empty and no
peer reports `is_leader = true`, `GetLeader` does not return, however many times
it polls; in particular it returns no error. -/
theorem GetLeader_polls_forever (net : RaftNet) (order : List (String × RaftPeer))
    (c : RaftCluster) (stale : Bool) (progress : Nat → Nat) (fuel : Nat)
    (hempty : c.leader = "")
    (hno : ∀ p ∈ order, ∀ r, net.getState p.1 = .ok r → r.IsLeader = false) :
    GetLeader net order c stale progress fuel = none := by
  unfold GetLeader
  apply GetLeaderPoll_empty
  intro i
  cases stale with
  | false => right; simp [hempty]
  | true =>
    simp only [if_true]
    cases hrun : doGetLeaderLoop net (order.take (progress i)) c 0 with
    | none => left; rfl
    | some c' =>
      right
      rcases doGetLeaderLoop_leader net _ c 0 c' hrun with
        ⟨h1, _⟩ | ⟨pre, id, inst, post, r, hsplit, hr, hlead, _, _, _, _⟩
      · simp [h1, hempty]
      · have hmem : (id, inst) ∈ order :=
          List.mem_of_mem_take (by rw [hsplit]; simp)
        have := hno (id, inst) hmem r hr
        rw [this] at hlead
        cases hlead

/-- Witness of C4: the cluster of A and B with an empty cache, both peers
reporting (term 5, not leader); a thousand polls do not reach the `return`. -/
theorem GetLeader_polls_forever_witness :
    GetLeader netNoLeader [peerA, peerB] (clusterAB "") true (fun i => i) 1000 = none :=
  GetLeader_polls_forever netNoLeader [peerA, peerB] (clusterAB "") true (fun i => i) 1000 rfl
    (by
      intro p _ r hr
      cases hr
      rfl)

end raft

/-! ## Edges: keys, equality, merge and check -/

namespace cmd

/-- Reading a key of an association list: the head entry or the rest. -/
theorem lookup_cons_eq (k k' : String) (v : Edge) (m : List (String × Edge)) :
    ((k', v) :: m).lookup k = if k = k' then some v else m.lookup k := by
  simp only [List.lookup]
  by_cases h : k = k'
  · subst h; simp
  · have : (k == k') = false := by simpa using h
    simp [this, h]

/-- A key that is read is a key of the map. -/
theorem lookup_isSome_iff (k : String) (m : List (String × Edge)) :
    (m.lookup k).isSome = true ↔ k ∈ m.map Prod.fst := by
  induction m with
  | nil => simp
  | cons p m ih =>
    obtain ⟨k', v⟩ := p
    rw [lookup_cons_eq]
    by_cases h : k = k'
    · simp [h]
    · simp only [h, if_false, List.map_cons, List.mem_cons, false_or]
      exact ih

/-- In a map without repeated keys, reading a key finds exactly its entry. -/
theorem lookup_eq_some_iff (k : String) (e : Edge) (m : List (String × Edge))
    (hnd : (m.map Prod.fst).Nodup) : m.lookup k = some e ↔ (k, e) ∈ m := by
  induction m with
  | nil => simp
  | cons p m ih =>
    obtain ⟨k', v⟩ := p
    rw [lookup_cons_eq]
    simp only [List.map_cons, List.nodup_cons] at hnd
    by_cases h : k = k'
    · subst h
      simp only [if_true, Option.some.injEq, List.mem_cons, Prod.mk.injEq, true_and]
      constructor
      · intro hv; exact Or.inl hv.symm
      · rintro (hv | hm)
        · exact hv.symm
        · exact absurd (List.mem_map.2 ⟨(k, e), hm, rfl⟩) hnd.1
    · simp only [h, if_false, List.mem_cons, Prod.mk.injEq, false_and, false_or]
      exact ih hnd.2

/-- The keys of a map after an assignment. -/
theorem keys_mapSet (k : String) (v : Edge) (m : List (String × Edge)) :
    (mapSet k v m).map Prod.fst =
      if k ∈ m.map Prod.fst then m.map Prod.fst else m.map Prod.fst ++ [k] := by
  induction m with
  | nil => simp [mapSet]
  | cons p m ih =>
    obtain ⟨k', v'⟩ := p
    simp only [mapSet]
    by_cases h : k' = k
    · simp [h]
    · have h' : ¬ k = k' := fun e => h e.symm
      simp only [h, if_false, List.map_cons, ih, List.mem_cons, h', false_or]
      split <;> simp

/-- An assignment keeps the keys of a map distinct. -/
theorem nodup_mapSet (k : String) (v : Edge) (m : List (String × Edge))
    (hnd : (m.map Prod.fst).Nodup) : ((mapSet k v m).map Prod.fst).Nodup := by
  rw [keys_mapSet]
  split
  · exact hnd
  · rename_i h
    exact List.Nodup.append hnd (List.nodup_singleton k) (by simpa using h)

/-- An entry of a map after an assignment is the assigned one or an old one. -/
theorem mem_mapSet (k : String) (v : Edge) (m : List (String × Edge)) (p : String × Edge)
    (h : p ∈ mapSet k v m) : p = (k, v) ∨ p ∈ m := by
  induction m with
  | nil => simpa [mapSet] using h
  | cons q m ih =>
    obtain ⟨k', v'⟩ := q
    simp only [mapSet] at h
    by_cases hk : k' = k
    · simp only [hk, if_true, List.mem_cons] at h
      rcases h with h | h
      · exact Or.inl h
      · exact Or.inr (List.mem_cons_of_mem _ h)
    · simp only [hk, if_false, List.mem_cons] at h
      rcases h with h | h
      · exact Or.inr (by rw [h]; exact List.mem_cons_self _ _)
      · rcases ih h with h | h
        · exact Or.inl h
        · exact Or.inr (List.mem_cons_of_mem _ h)

/-- The assigned entry is in the map after the assignment. -/
theorem mem_mapSet_self (k : String) (v : Edge) (m : List (String × Edge)) :
    (k, v) ∈ mapSet k v m := by
  induction m with
  | nil => simp [mapSet]
  | cons q m ih =>
    obtain ⟨k', v'⟩ := q
    simp only [mapSet]
    by_cases hk : k' = k
    · simp [hk]
    · simp only [hk, if_false]
      exact List.mem_cons_of_mem _ ih

/-- An assignment keeps the entries of the other keys. -/
theorem mem_mapSet_of_ne (k : String) (v : Edge) (m : List (String × Edge)) (p : String × Edge)
    (hp : p ∈ m) (hne : p.1 ≠ k) : p ∈ mapSet k v m := by
  induction m with
  | nil => cases hp
  | cons q m ih =>
    obtain ⟨k', v'⟩ := q
    simp only [mapSet]
    by_cases hk : k' = k
    · simp only [hk, if_true]
      rcases List.mem_cons.1 hp with h | h
      · subst h
        exact absurd hk hne
      · exact List.mem_cons_of_mem _ h
    · simp only [hk, if_false]
      rcases List.mem_cons.1 hp with h | h
      · rw [h]; exact List.mem_cons_self _ _
      · exact List.mem_cons_of_mem _ (ih h)

/-- The loop of `toMap` started from a map `m`. -/
theorem foldl_mapSet_nodup (xs : List Edge) :
    ∀ m : List (String × Edge), (m.map Prod.fst).Nodup →
      ((xs.foldl (fun emap e => mapSet e.Key e emap) m).map Prod.fst).Nodup := by
  induction xs with
  | nil => intro m h; exact h
  | cons x xs ih => intro m h; exact ih _ (nodup_mapSet _ _ _ h)

/-- The keys of the map built by the loop of `toMap` from a map `m`. -/
theorem foldl_mapSet_keys (xs : List Edge) :
    ∀ (m : List (String × Edge)) (k : String),
      k ∈ (xs.foldl (fun emap e => mapSet e.Key e emap) m).map Prod.fst ↔
        k ∈ m.map Prod.fst ∨ k ∈ xs.map Edge.Key := by
  induction xs with
  | nil => intro m k; simp
  | cons x xs ih =>
    intro m k
    simp only [List.foldl_cons, List.map_cons, List.mem_cons]
    rw [ih, keys_mapSet]
    split
    · rename_i hx
      constructor
      · rintro (h | h)
        · exact Or.inl h
        · exact Or.inr (Or.inr h)
      · rintro (h | h | h)
        · exact Or.inl h
        · exact Or.inl (h ▸ hx)
        · exact Or.inr h
    · simp only [List.mem_append, List.mem_singleton]
      tauto

/-- The entries of the map built by the loop of `toMap` from a map `m`. -/
theorem foldl_mapSet_mem (xs : List Edge) :
    ∀ (m : List (String × Edge)) (p : String × Edge),
      p ∈ xs.foldl (fun emap e => mapSet e.Key e emap) m →
        p ∈ m ∨ (p.2 ∈ xs ∧ p.2.Key = p.1) := by
  induction xs with
  | nil => intro m p h; exact Or.inl h
  | cons x xs ih =>
    intro m p h
    rcases ih _ p h with h | ⟨h1, h2⟩
    · rcases mem_mapSet _ _ _ _ h with h | h
      · right
        subst h
        exact ⟨List.mem_cons_self _ _, rfl⟩
      · exact Or.inl h
    · exact Or.inr ⟨List.mem_cons_of_mem _ h1, h2⟩

/-- An entry whose key no later edge carries survives the loop of `toMap`. -/
theorem foldl_mapSet_keep (xs : List Edge) :
    ∀ (m : List (String × Edge)) (p : String × Edge), p ∈ m → p.1 ∉ xs.map Edge.Key →
      p ∈ xs.foldl (fun emap e => mapSet e.Key e emap) m := by
  induction xs with
  | nil => intro m p h _; exact h
  | cons x xs ih =>
    intro m p h hk
    simp only [List.map_cons, List.mem_cons, not_or] at hk
    exact ih _ p (mem_mapSet_of_ne _ _ _ _ h hk.1) hk.2

/-- When no key repeats in the list, every edge of it is in the map built by the
loop of `toMap`. -/
theorem foldl_mapSet_all (xs : List Edge) :
    ∀ (m : List (String × Edge)) (e : Edge), (xs.map Edge.Key).Nodup → e ∈ xs →
      (e.Key, e) ∈ xs.foldl (fun emap e => mapSet e.Key e emap) m := by
  induction xs with
  | nil => intro m e _ h; cases h
  | cons x xs ih =>
    intro m e hnd h
    simp only [List.map_cons, List.nodup_cons] at hnd
    rcases List.mem_cons.1 h with h | h
    · subst h
      exact foldl_mapSet_keep xs _ (e.Key, e) (mem_mapSet_self _ _ _) hnd.1
    · exact ih _ e hnd.2 h

/-- The map built by `toMap` has no repeated key. -/
theorem toMap_nodup (xs : List Edge) : ((toMap xs).map Prod.fst).Nodup :=
  foldl_mapSet_nodup xs [] List.nodup_nil

/-- The keys of the map built by `toMap` are the keys of the edges. -/
theorem toMap_keys (xs : List Edge) (k : String) :
    k ∈ (toMap xs).map Prod.fst ↔ k ∈ xs.map Edge.Key := by
  unfold toMap
  rw [foldl_mapSet_keys]
  simp

/-- An entry of the map built by `toMap` is an edge of the list under its key. -/
theorem toMap_mem (xs : List Edge) (p : String × Edge) (h : p ∈ toMap xs) :
    p.2 ∈ xs ∧ p.2.Key = p.1 := by
  rcases foldl_mapSet_mem xs [] p h with h | h
  · cases h
  · exact h

/-- When no key repeats in the list, the map built by `toMap` holds every edge. -/
theorem toMap_all (xs : List Edge) (e : Edge) (hnd : (xs.map Edge.Key).Nodup) (h : e ∈ xs) :
    (e.Key, e) ∈ toMap xs :=
  foldl_mapSet_all xs [] e hnd h

end cmd

namespace cmd

/-- The loop of `mergeEdges` with an empty key set appends every edge. -/
theorem mergeLoop_nil (tmp : List Edge) : ∀ edges : List Edge,
    mergeLoop [] tmp edges = edges ++ tmp := by
  induction tmp with
  | nil => intro edges; simp [mergeLoop]
  | cons e tmp ih =>
    intro edges
    simp only [mergeLoop, List.not_mem_nil, if_false]
    rw [ih]
    simp

/-- C5 (the code at the failing inputs): in `AllEdge` mode `getEdges` returns
the forward list followed by the reverse list, every edge kept, whether or not
its key occurred before. -/
theorem getEdges_all_keeps_duplicates (scan : Bool → Except String (List Edge))
    (outEdges inEdges : List Edge)
    (hout : scan false = .ok outEdges) (hin : scan true = .ok inEdges) :
    getEdges scan AllEdge = .ok (outEdges ++ inEdges) := by
  have hmerge : mergeEdges outEdges inEdges = outEdges ++ inEdges := by
    unfold mergeEdges
    rw [mergeLoop_nil]
    rfl
  have h0 : ¬ AllEdge = OutEdge := by decide
  have h1 : ¬ AllEdge = InEdge := by decide
  unfold getEdges
  rw [if_neg h0, if_neg h1, if_pos rfl]
  simp only [hout, hin, hmerge]

/-- Witness of C5: the edge (1, 2, 0) scanned in both directions is returned
twice. -/
theorem getEdges_all_keeps_duplicates_witness :
    getEdges (scanOf [edge120] [edge120]) AllEdge = .ok ([edge120] ++ [edge120]) :=
  getEdges_all_keeps_duplicates (scanOf [edge120] [edge120]) [edge120] [edge120] rfl rfl

/-- The lines of the first loop. -/
theorem mem_missingInLoop (m : List (String × Edge)) (l : LogLine) :
    ∀ ord : List (String × Edge), l ∈ missingInLoop m ord → ∃ k, l = LogLine.missingIn k := by
  intro ord
  induction ord with
  | nil => intro h; cases h
  | cons p ord ih =>
    obtain ⟨k, e⟩ := p
    intro h
    simp only [missingInLoop] at h
    split at h
    · rcases List.mem_cons.1 h with h | h
      · exact ⟨_, h⟩
      · exact ih h
    · exact ih h

/-- The lines of the second loop. -/
theorem mem_missingOutLoop (m : List (String × Edge)) (l : LogLine) :
    ∀ ord : List (String × Edge), l ∈ missingOutLoop m ord → ∃ k, l = LogLine.missingOut k := by
  intro ord
  induction ord with
  | nil => intro h; cases h
  | cons p ord ih =>
    obtain ⟨k, e⟩ := p
    intro h
    simp only [missingOutLoop] at h
    split at h
    · rcases List.mem_cons.1 h with h | h
      · exact ⟨_, h⟩
      · exact ih h
    · exact ih h

/-- The lines of the third loop: one for each visited entry whose key the other
map holds with an edge that `Equals` rejects. -/
theorem mem_mismatchLoop (m : List (String × Edge)) (l : LogLine) :
    ∀ ord : List (String × Edge), l ∈ mismatchLoop m ord ↔
      ∃ p ∈ ord, ∃ ei, m.lookup p.1 = some ei ∧ p.2.Equals ei = false ∧
        l = LogLine.mismatch p.2 ei := by
  intro ord
  induction ord with
  | nil => simp [mismatchLoop]
  | cons p ord ih =>
    obtain ⟨k, e⟩ := p
    simp only [mismatchLoop]
    cases hlk : m.lookup k with
    | none =>
      simp only [ih, List.mem_cons, exists_eq_or_imp, hlk]
      simp
    | some ei =>
      simp only []
      cases heq : e.Equals ei with
      | true =>
        simp only [Bool.not_true, Bool.false_eq_true, if_false, ih, List.mem_cons,
          exists_eq_or_imp, hlk, Option.some.injEq]
        constructor
        · intro h; exact Or.inr h
        · rintro (⟨ei', h1, h2, _⟩ | h)
          · subst h1; rw [heq] at h2; cases h2
          · exact h
      | false =>
        simp only [Bool.not_false, if_true, List.mem_cons, ih, exists_eq_or_imp, hlk,
          Option.some.injEq]
        constructor
        · rintro (h | h)
          · exact Or.inl ⟨ei, rfl, heq, h⟩
          · exact Or.inr h
        · rintro (⟨ei', h1, _, h3⟩ | h)
          · subst h1; exact Or.inl h3
          · exact Or.inr h

/-- How often the first loop reports a key. -/
theorem count_missingInLoop (m : List (String × Edge)) (k : String) :
    ∀ ord : List (String × Edge), (∀ p ∈ ord, p.2.Key = p.1) →
      (missingInLoop m ord).count (LogLine.missingIn k) =
        if (m.lookup k).isNone then (ord.map Prod.fst).count k else 0 := by
  intro ord
  induction ord with
  | nil => intro _; simp [missingInLoop]
  | cons p ord ih =>
    obtain ⟨k', e⟩ := p
    intro hkey
    have hk' : e.Key = k' := hkey (k', e) (List.mem_cons_self _ _)
    have ih' := ih (fun p hp => hkey p (List.mem_cons_of_mem _ hp))
    simp only [missingInLoop, List.map_cons, hk']
    by_cases h : k' = k
    · subst h
      cases hl : (m.lookup k').isNone with
      | true =>
        rw [hl] at ih'
        simp only [if_true] at ih' ⊢
        rw [List.count_cons_self, List.count_cons_self, ih']
      | false =>
        rw [hl] at ih'
        simpa using ih'
    · have hne : LogLine.missingIn k' ≠ LogLine.missingIn k := by
        intro hc; cases hc; exact h rfl
      rw [List.count_cons_of_ne (Ne.symm h)]
      split
      · rw [List.count_cons_of_ne (Ne.symm hne)]; exact ih'
      · exact ih'

/-- How often the second loop reports a key. -/
theorem count_missingOutLoop (m : List (String × Edge)) (k : String) :
    ∀ ord : List (String × Edge), (∀ p ∈ ord, p.2.Key = p.1) →
      (missingOutLoop m ord).count (LogLine.missingOut k) =
        if (m.lookup k).isNone then (ord.map Prod.fst).count k else 0 := by
  intro ord
  induction ord with
  | nil => intro _; simp [missingOutLoop]
  | cons p ord ih =>
    obtain ⟨k', e⟩ := p
    intro hkey
    have hk' : e.Key = k' := hkey (k', e) (List.mem_cons_self _ _)
    have ih' := ih (fun p hp => hkey p (List.mem_cons_of_mem _ hp))
    simp only [missingOutLoop, List.map_cons, hk']
    by_cases h : k' = k
    · subst h
      cases hl : (m.lookup k').isNone with
      | true =>
        rw [hl] at ih'
        simp only [if_true] at ih' ⊢
        rw [List.count_cons_self, List.count_cons_self, ih']
      | false =>
        rw [hl] at ih'
        simpa using ih'
    · have hne : LogLine.missingOut k' ≠ LogLine.missingOut k := by
        intro hc; cases hc; exact h rfl
      rw [List.count_cons_of_ne (Ne.symm h)]
      split
      · rw [List.count_cons_of_ne (Ne.symm hne)]; exact ih'
      · exact ih'

end cmd

namespace cmd

/-- A visiting order of the map built by `toMap` meets every key of the edges
once. -/
theorem count_keys_of_perm (ord : List (String × Edge)) (xs : List Edge)
    (h : ord.Perm (toMap xs)) (k : String) :
    (ord.map Prod.fst).count k = if k ∈ xs.map Edge.Key then 1 else 0 := by
  rw [(h.map Prod.fst).count_eq, List.count_eq_of_nodup (toMap_nodup xs)]
  simp only [toMap_keys]

/-- Every entry of a visiting order of the map built by `toMap` sits under the
key of its edge. -/
theorem keyed_of_perm (ord : List (String × Edge)) (xs : List Edge)
    (h : ord.Perm (toMap xs)) : ∀ p ∈ ord, p.2.Key = p.1 :=
  fun p hp => (toMap_mem xs p (h.subset hp)).2

/-- The map built by `toMap` has no entry for a key exactly when no edge carries
that key. -/
theorem lookup_toMap_isNone (xs : List Edge) (k : String) :
    ((toMap xs).lookup k).isNone = true ↔ k ∉ xs.map Edge.Key := by
  rw [← toMap_keys, ← lookup_isSome_iff]
  cases (toMap xs).lookup k <;> simp

/-- The log of `runCheckEdge` when both scans succeed. -/
theorem runCheckEdge_eq (scan : Bool → Except String (List Edge))
    (outEdges inEdges : List Edge) (ord1 ord2 ord3 : List (String × Edge))
    (hout : scan false = .ok outEdges) (hin : scan true = .ok inEdges) :
    runCheckEdge scan ord1 ord2 ord3 =
      some ([LogLine.outSize (toMap outEdges).length, LogLine.inSize (toMap inEdges).length] ++
        missingInLoop (toMap inEdges) ord1 ++
        missingOutLoop (toMap outEdges) ord2 ++
        mismatchLoop (toMap inEdges) ord3) := by
  simp only [runCheckEdge, hout, hin]

/-- C6: the check reports a key as missing its in-edge exactly once when the key
occurs in the forward list and in no edge of the reverse list, and never
otherwise; it reports a key as missing its out-edge exactly once when the key
occurs in the reverse list and not in the forward list, and never otherwise.
This holds for every order in which the maps are visited. -/
theorem runCheckEdge_missing (scan : Bool → Except String (List Edge))
    (outEdges inEdges : List Edge) (ord1 ord2 ord3 : List (String × Edge))
    (hout : scan false = .ok outEdges) (hin : scan true = .ok inEdges)
    (h1 : ord1.Perm (toMap outEdges)) (h2 : ord2.Perm (toMap inEdges)) :
    ∃ log, runCheckEdge scan ord1 ord2 ord3 = some log ∧
      ∀ k : String,
        log.count (LogLine.missingIn k) =
          (if k ∈ outEdges.map Edge.Key ∧ k ∉ inEdges.map Edge.Key then 1 else 0) ∧
        log.count (LogLine.missingOut k) =
          (if k ∈ inEdges.map Edge.Key ∧ k ∉ outEdges.map Edge.Key then 1 else 0) := by
  refine ⟨_, runCheckEdge_eq scan outEdges inEdges ord1 ord2 ord3 hout hin, ?_⟩
  intro k
  have hIn2 : (missingOutLoop (toMap outEdges) ord2).count (LogLine.missingIn k) = 0 :=
    List.count_eq_zero_of_not_mem (fun hm => by
      obtain ⟨k', hk'⟩ := mem_missingOutLoop _ _ _ hm
      cases hk')
  have hIn3 : (mismatchLoop (toMap inEdges) ord3).count (LogLine.missingIn k) = 0 :=
    List.count_eq_zero_of_not_mem (fun hm => by
      obtain ⟨p, _, ei, _, _, hl⟩ := (mem_mismatchLoop _ _ _).1 hm
      cases hl)
  have hOut1 : (missingInLoop (toMap inEdges) ord1).count (LogLine.missingOut k) = 0 :=
    List.count_eq_zero_of_not_mem (fun hm => by
      obtain ⟨k', hk'⟩ := mem_missingInLoop _ _ _ hm
      cases hk')
  have hOut3 : (mismatchLoop (toMap inEdges) ord3).count (LogLine.missingOut k) = 0 :=
    List.count_eq_zero_of_not_mem (fun hm => by
      obtain ⟨p, _, ei, _, _, hl⟩ := (mem_mismatchLoop _ _ _).1 hm
      cases hl)
  have hc1 := count_missingInLoop (toMap inEdges) k ord1 (keyed_of_perm ord1 outEdges h1)
  have hc2 := count_missingOutLoop (toMap outEdges) k ord2 (keyed_of_perm ord2 inEdges h2)
  rw [count_keys_of_perm ord1 outEdges h1] at hc1
  rw [count_keys_of_perm ord2 inEdges h2] at hc2
  have hn1 : ((toMap inEdges).lookup k).isNone = true ↔ k ∉ inEdges.map Edge.Key :=
    lookup_toMap_isNone inEdges k
  have hn2 : ((toMap outEdges).lookup k).isNone = true ↔ k ∉ outEdges.map Edge.Key :=
    lookup_toMap_isNone outEdges k
  constructor
  · simp only [List.count_append, hIn2, hIn3, hc1, List.count_cons, List.count_nil, hn1]
    by_cases ha : k ∈ outEdges.map Edge.Key <;>
      by_cases hb : k ∈ inEdges.map Edge.Key <;> simp [ha, hb]
  · simp only [List.count_append, hOut1, hOut3, hc2, List.count_cons, List.count_nil, hn2]
    by_cases ha : k ∈ outEdges.map Edge.Key <;>
      by_cases hb : k ∈ inEdges.map Edge.Key <;> simp [ha, hb]

end cmd

namespace cmd

/-- Witness of C6: the forward list holds the key (1, 2, 0) and the reverse list
is empty; the check reports (1, 2, 0) as missing its in-edge exactly once and
never as missing its out-edge. -/
theorem runCheckEdge_missing_witness :
    ∃ log, runCheckEdge (scanOf [edge120] []) (toMap [edge120]) (toMap []) (toMap [edge120]) =
        some log ∧
      log.count (LogLine.missingIn "1->2@0") = 1 ∧
      log.count (LogLine.missingOut "1->2@0") = 0 := by
  obtain ⟨log, hlog, hk⟩ := runCheckEdge_missing (scanOf [edge120] []) [edge120] []
    (toMap [edge120]) (toMap []) (toMap [edge120]) rfl rfl (List.Perm.refl _) (List.Perm.refl _)
  exact ⟨log, hlog, (hk "1->2@0").1.trans (by decide), (hk "1->2@0").2.trans (by decide)⟩

/-- The first two loops and the size lines hold no mismatch report. -/
theorem countP_isMismatchAt_missingIn (m : List (String × Edge)) (k : String)
    (ord : List (String × Edge)) :
    (missingInLoop m ord).countP (LogLine.isMismatchAt k) = 0 := by
  rw [List.countP_eq_zero]
  intro l hl
  obtain ⟨k', hk'⟩ := mem_missingInLoop m l ord hl
  subst hk'
  simp [LogLine.isMismatchAt]

/-- See `countP_isMismatchAt_missingIn`. -/
theorem countP_isMismatchAt_missingOut (m : List (String × Edge)) (k : String)
    (ord : List (String × Edge)) :
    (missingOutLoop m ord).countP (LogLine.isMismatchAt k) = 0 := by
  rw [List.countP_eq_zero]
  intro l hl
  obtain ⟨k', hk'⟩ := mem_missingOutLoop m l ord hl
  subst hk'
  simp [LogLine.isMismatchAt]

/-- The third loop reports a key at most as often as it visits it. -/
theorem countP_isMismatchAt_mismatchLoop (m : List (String × Edge)) (k : String) :
    ∀ ord : List (String × Edge), (∀ p ∈ ord, p.2.Key = p.1) →
      (mismatchLoop m ord).countP (LogLine.isMismatchAt k) ≤ (ord.map Prod.fst).count k := by
  intro ord
  induction ord with
  | nil => intro _; simp [mismatchLoop]
  | cons p ord ih =>
    obtain ⟨k', e⟩ := p
    intro hkey
    have hk' : e.Key = k' := hkey (k', e) (List.mem_cons_self _ _)
    have ih' := ih (fun p hp => hkey p (List.mem_cons_of_mem _ hp))
    have hmono : (ord.map Prod.fst).count k ≤ ((k', e) :: ord |>.map Prod.fst).count k := by
      simp only [List.map_cons, List.count_cons]
      exact Nat.le_add_right _ _
    simp only [mismatchLoop]
    split
    · exact le_trans ih' hmono
    · split
      · simp only [List.countP_cons, LogLine.isMismatchAt, hk', List.map_cons, List.count_cons,
          beq_iff_eq, decide_eq_true_eq]
        exact Nat.add_le_add_right ih' _
      · exact le_trans ih' hmono

/-- C7: when no key repeats within the forward list nor within the reverse list,
the check reports a mismatch of two edges exactly when the first is in the
forward list, the second in the reverse list, they have the same key and
`Equals` rejects them; the log holds at most one mismatch report for a key,
hence exactly one for a key shared by two such edges, and the report carries
both edges. This holds for every order in which the maps are visited. -/
theorem runCheckEdge_mismatch (scan : Bool → Except String (List Edge))
    (outEdges inEdges : List Edge) (ord1 ord2 ord3 : List (String × Edge))
    (hout : scan false = .ok outEdges) (hin : scan true = .ok inEdges)
    (hko : (outEdges.map Edge.Key).Nodup) (hki : (inEdges.map Edge.Key).Nodup)
    (h3 : ord3.Perm (toMap outEdges)) :
    ∃ log, runCheckEdge scan ord1 ord2 ord3 = some log ∧
      (∀ eo ei : Edge, LogLine.mismatch eo ei ∈ log ↔
        (eo ∈ outEdges ∧ ei ∈ inEdges ∧ eo.Key = ei.Key ∧ eo.Equals ei = false)) ∧
      (∀ k : String, log.countP (LogLine.isMismatchAt k) ≤ 1) ∧
      (∀ eo ei : Edge, eo ∈ outEdges → ei ∈ inEdges → eo.Key = ei.Key → eo.Equals ei = false →
        log.countP (LogLine.isMismatchAt eo.Key) = 1) := by
  refine ⟨_, runCheckEdge_eq scan outEdges inEdges ord1 ord2 ord3 hout hin, ?_⟩
  have hmem : ∀ eo ei : Edge,
      LogLine.mismatch eo ei ∈
        [LogLine.outSize (toMap outEdges).length, LogLine.inSize (toMap inEdges).length] ++
          missingInLoop (toMap inEdges) ord1 ++ missingOutLoop (toMap outEdges) ord2 ++
          mismatchLoop (toMap inEdges) ord3 ↔
      (eo ∈ outEdges ∧ ei ∈ inEdges ∧ eo.Key = ei.Key ∧ eo.Equals ei = false) := by
    intro eo ei
    constructor
    · intro h
      rcases List.mem_append.1 h with h | h
      · rcases List.mem_append.1 h with h | h
        · rcases List.mem_append.1 h with h | h
          · simp at h
          · obtain ⟨k', hk'⟩ := mem_missingInLoop _ _ _ h
            cases hk'
        · obtain ⟨k', hk'⟩ := mem_missingOutLoop _ _ _ h
          cases hk'
      · obtain ⟨p, hp, ei', hlk, hne, hl⟩ := (mem_mismatchLoop _ _ _).1 h
        cases hl
        have hp' := toMap_mem outEdges p (h3.subset hp)
        have hi := toMap_mem inEdges (p.1, ei)
          ((lookup_eq_some_iff _ _ _ (toMap_nodup inEdges)).1 hlk)
        exact ⟨hp'.1, hi.1, hp'.2.trans hi.2.symm, hne⟩
    · rintro ⟨ho, hi, hk, hne⟩
      apply List.mem_append_right
      rw [mem_mismatchLoop]
      refine ⟨(eo.Key, eo), h3.symm.subset (toMap_all outEdges eo hko ho), ei, ?_, hne, rfl⟩
      rw [lookup_eq_some_iff _ _ _ (toMap_nodup inEdges)]
      simp only []
      rw [hk]
      exact toMap_all inEdges ei hki hi
  have hle : ∀ k : String,
      ([LogLine.outSize (toMap outEdges).length, LogLine.inSize (toMap inEdges).length] ++
          missingInLoop (toMap inEdges) ord1 ++ missingOutLoop (toMap outEdges) ord2 ++
          mismatchLoop (toMap inEdges) ord3).countP (LogLine.isMismatchAt k) ≤ 1 := by
    intro k
    simp only [List.countP_append, countP_isMismatchAt_missingIn,
      countP_isMismatchAt_missingOut, List.countP_cons, List.countP_nil, LogLine.isMismatchAt]
    have := countP_isMismatchAt_mismatchLoop (toMap inEdges) k ord3
      (keyed_of_perm ord3 outEdges h3)
    rw [count_keys_of_perm ord3 outEdges h3] at this
    have h01 : (if k ∈ outEdges.map Edge.Key then 1 else 0) ≤ 1 := by split <;> simp
    simpa using le_trans this h01
  refine ⟨hmem, hle, ?_⟩
  intro eo ei ho hi hk hne
  apply le_antisymm (hle eo.Key)
  rw [Nat.succ_le_iff, List.countP_pos_iff]   
  exact ⟨LogLine.mismatch eo ei, (hmem eo ei).2 ⟨ho, hi, hk, hne⟩, by simp [LogLine.isMismatchAt]⟩

/-- Witness of C7: both lists hold the key (1, 2, 0), with different `idx`
values; the check logs exactly one mismatch report, carrying both edges. -/
theorem runCheckEdge_mismatch_witness :
    ∃ log, runCheckEdge (scanOf [edge120, edge341] [edge120b, edge341])
        (toMap [edge120, edge341]) (toMap [edge120b, edge341]) (toMap [edge120, edge341]) =
        some log ∧
      LogLine.mismatch edge120 edge120b ∈ log ∧
      log.countP (LogLine.isMismatchAt "1->2@0") = 1 ∧
      log.countP (LogLine.isMismatchAt "3->4@1") ≤ 1 := by
  obtain ⟨log, hlog, hmem, hle, hone⟩ :=
    runCheckEdge_mismatch (scanOf [edge120, edge341] [edge120b, edge341])
      [edge120, edge341] [edge120b, edge341]
      (toMap [edge120, edge341]) (toMap [edge120b, edge341]) (toMap [edge120, edge341])
      rfl rfl (by decide) (by decide) (List.Perm.refl _)
  exact ⟨log, hlog, (hmem edge120 edge120b).2 (by decide),
    hone edge120 edge120b (by decide) (by decide) (by decide) (by decide), hle _⟩

end cmd

namespace cmd

/-- An edge `Equals` itself. -/
theorem Equals_self (e : Edge) : e.Equals e = true := by
  unfold Edge.Equals
  cases h : e.ts <;> simp

/-- The first loop logs nothing when the other map holds every visited key. -/
theorem missingInLoop_eq_nil (m : List (String × Edge)) :
    ∀ ord : List (String × Edge), (∀ p ∈ ord, (m.lookup p.1).isSome = true) →
      missingInLoop m ord = [] := by
  intro ord
  induction ord with
  | nil => intro _; rfl
  | cons p ord ih =>
    obtain ⟨k, e⟩ := p
    intro h
    have hk := h (k, e) (List.mem_cons_self _ _)
    simp only [missingInLoop]
    cases hl : m.lookup k with
    | none => rw [hl] at hk; cases hk
    | some v =>
      simp only [Option.isNone_some, Bool.false_eq_true, if_false]
      exact ih (fun p hp => h p (List.mem_cons_of_mem _ hp))

/-- The second loop logs nothing when the other map holds every visited key. -/
theorem missingOutLoop_eq_nil (m : List (String × Edge)) :
    ∀ ord : List (String × Edge), (∀ p ∈ ord, (m.lookup p.1).isSome = true) →
      missingOutLoop m ord = [] := by
  intro ord
  induction ord with
  | nil => intro _; rfl
  | cons p ord ih =>
    obtain ⟨k, e⟩ := p
    intro h
    have hk := h (k, e) (List.mem_cons_self _ _)
    simp only [missingOutLoop]
    cases hl : m.lookup k with
    | none => rw [hl] at hk; cases hk
    | some v =>
      simp only [Option.isNone_some, Bool.false_eq_true, if_false]
      exact ih (fun p hp => h p (List.mem_cons_of_mem _ hp))

/-- The third loop logs nothing when it has no line to log. -/
theorem mismatchLoop_eq_nil (m ord : List (String × Edge))
    (h : ∀ p ∈ ord, ∀ ei, m.lookup p.1 = some ei → p.2.Equals ei = true) :
    mismatchLoop m ord = [] := by
  apply List.eq_nil_iff_forall_not_mem.2
  intro l hl
  obtain ⟨p, hp, ei, hlk, hne, _⟩ := (mem_mismatchLoop m l ord).1 hl
  rw [h p hp ei hlk] at hne
  cases hne

/-- C8: when the forward scan and the reverse scan (after its swap) return the
same list, with or without timestamps and with or without repeated keys, the
check logs the two size lines and nothing else: no missing edge and no
mismatch, in whatever order the maps are visited. -/
theorem runCheckEdge_same (scan : Bool → Except String (List Edge)) (edges : List Edge)
    (ord1 ord2 ord3 : List (String × Edge))
    (hout : scan false = .ok edges) (hin : scan true = .ok edges)
    (h1 : ord1.Perm (toMap edges)) (h2 : ord2.Perm (toMap edges))
    (h3 : ord3.Perm (toMap edges)) :
    runCheckEdge scan ord1 ord2 ord3 =
      some [LogLine.outSize (toMap edges).length, LogLine.inSize (toMap edges).length] := by
  have hsome : ∀ ord : List (String × Edge), ord.Perm (toMap edges) →
      ∀ p ∈ ord, ((toMap edges).lookup p.1).isSome = true := by
    intro ord h p hp
    rw [lookup_isSome_iff]
    exact List.mem_map.2 ⟨p, h.subset hp, rfl⟩
  rw [runCheckEdge_eq scan edges edges ord1 ord2 ord3 hout hin,
    missingInLoop_eq_nil _ _ (hsome ord1 h1), missingOutLoop_eq_nil _ _ (hsome ord2 h2),
    mismatchLoop_eq_nil]
  · simp
  · intro p hp ei hlk
    have hmem : (p.1, ei) ∈ toMap edges :=
      (lookup_eq_some_iff _ _ _ (toMap_nodup edges)).1 hlk
    have hp' : (p.1, p.2) ∈ toMap edges := h3.subset hp
    have : (p.1, p.2) = (p.1, ei) := by
      have hnd := toMap_nodup edges
      rw [← lookup_eq_some_iff _ _ _ hnd] at hmem hp'
      rw [hmem] at hp'
      cases hp'
      rfl
    cases this
    exact Equals_self _

/-- Witness of C8: the list holds the key (1, 2, 0) twice and an edge without
timestamp; the check of the list against itself logs the sizes only. -/
theorem runCheckEdge_same_witness :
    runCheckEdge (scanOf [edge120, edge341, edge120b] [edge120, edge341, edge120b])
        (toMap [edge120, edge341, edge120b]) (toMap [edge120, edge341, edge120b])
        (toMap [edge120, edge341, edge120b]) =
      some [LogLine.outSize (toMap [edge120, edge341, edge120b]).length,
        LogLine.inSize (toMap [edge120, edge341, edge120b]).length] :=
  runCheckEdge_same (scanOf [edge120, edge341, edge120b] [edge120, edge341, edge120b])
    [edge120, edge341, edge120b] _ _ _ rfl rfl (List.Perm.refl _) (List.Perm.refl _)
    (List.Perm.refl _)

/-- C9: a forward row with columns `_src = a`, `_rank = r`, `_dst = b` and a
reverse row with columns `_src = b`, `_rank = r`, `_dst = a` both decode, the
reverse one with its source and destination swapped, into edges with the same
key, the key of `(a, b, r)`. -/
theorem decodeRow_key_forward_reverse (a b r : Int)
    (f0 f1 f2 f3 f4 f5 g0 g1 g2 g3 g4 g5 : Value) (ftail gtail : List Value)
    (hf0 : f0.IVal = some a) (hf2 : f2.IVal = some r) (hf3 : f3.IVal = some b)
    (hg0 : g0.IVal = some b) (hg2 : g2.IVal = some r) (hg3 : g3.IVal = some a) :
    ∃ e₁ e₂ : Edge,
      decodeRow false (f0 :: f1 :: f2 :: f3 :: f4 :: f5 :: ftail) = some e₁ ∧
      decodeRow true (g0 :: g1 :: g2 :: g3 :: g4 :: g5 :: gtail) = some e₂ ∧
      e₁.Key = e₂.Key ∧
      e₁.Key = Edge.Key { src := a, dst := b, rank := r, idx := "", ts := none } ∧
      (e₁.src, e₁.dst, e₁.rank) = (a, b, r) ∧ (e₂.src, e₂.dst, e₂.rank) = (a, b, r) := by
  refine ⟨{ src := a, dst := b, rank := r, idx := f4.SVal.getD "", ts := f5.DtVal },
    { src := a, dst := b, rank := r, idx := g4.SVal.getD "", ts := g5.DtVal }, ?_, ?_,
    rfl, rfl, rfl, rfl⟩
  · simp [decodeRow, hf0, hf2, hf3]
  · simp [decodeRow, hg0, hg2, hg3]

/-- Witness of C9: the edge from 1 to 2 with rank 0, scanned forward as
(1, _, 0, 2, ..) and in reverse as (2, _, 0, 1, ..). -/
theorem decodeRow_key_forward_reverse_witness :
    ∃ e₁ e₂ : Edge,
      decodeRow false
        (intCol 1 :: intCol 7 :: intCol 0 :: intCol 2 :: strCol "x" :: nullCol :: []) = some e₁ ∧
      decodeRow true
        (intCol 2 :: intCol (-7) :: intCol 0 :: intCol 1 :: strCol "y" :: nullCol :: []) =
          some e₂ ∧
      e₁.Key = e₂.Key ∧
      e₁.Key = Edge.Key { src := 1, dst := 2, rank := 0, idx := "", ts := none } ∧
      (e₁.src, e₁.dst, e₁.rank) = (1, 2, 0) ∧ (e₂.src, e₂.dst, e₂.rank) = (1, 2, 0) :=
  decodeRow_key_forward_reverse 1 2 0 (intCol 1) (intCol 7) (intCol 0) (intCol 2) (strCol "x")
    nullCol (intCol 2) (intCol (-7)) (intCol 0) (intCol 1) (strCol "y") nullCol [] []
    rfl rfl rfl rfl rfl rfl

/-- C10: `Equals` holds exactly when the two edges have the same source,
destination, rank and `idx`, and their timestamps are both nil or both present
and equal; an edge without timestamp never equals one with a timestamp. -/
theorem Equals_iff (e o : Edge) (d : DateTime) :
    (e.Equals o = true ↔
      (e.src = o.src ∧ e.dst = o.dst ∧ e.rank = o.rank ∧ e.idx = o.idx ∧
        ((e.ts = none ∧ o.ts = none) ∨ ∃ t, e.ts = some t ∧ o.ts = some t))) ∧
    Edge.Equals { e with ts := none } { o with ts := some d } = false ∧
    Edge.Equals { e with ts := some d } { o with ts := none } = false := by
  refine ⟨?_, ?_, ?_⟩
  · unfold Edge.Equals
    cases he : e.ts <;> cases ho : o.ts <;> simp <;> tauto
  · simp [Edge.Equals]
  · simp [Edge.Equals]

end cmd

/-! ## Row decoding -/

namespace cmd

/-- When row decoding panics: exactly when the row has fewer than six columns or
one of the columns 0, 2 and 3 holds no integer. -/
theorem decodeRow_eq_none_iff (reverse : Bool) (values : List Value) :
    decodeRow reverse values = none ↔
      (values.length < 6 ∨ (values[0]?).bind Value.IVal = none ∨
        (values[2]?).bind Value.IVal = none ∨ (values[3]?).bind Value.IVal = none) := by
  rcases values with _ | ⟨v0, _ | ⟨v1, _ | ⟨v2, _ | ⟨v3, _ | ⟨v4, _ | ⟨v5, tl⟩⟩⟩⟩⟩⟩
  · simp [decodeRow]
  · simp [decodeRow]
  · simp [decodeRow]
  · simp [decodeRow]
  · simp [decodeRow]
  · simp [decodeRow]
  · cases reverse <;> cases h0 : v0.IVal <;> cases h2 : v2.IVal <;> cases h3 : v3.IVal <;>
      simp [decodeRow, h0, h2, h3]

/-- The `idx` of a decoded edge is the string of column 4, the empty string
when that column holds no string. -/
theorem decodeRow_idx (reverse : Bool) (values : List Value) (e : Edge)
    (h : decodeRow reverse values = some e) :
    e.idx = ((values[4]?).bind Value.SVal).getD "" := by
  rcases values with _ | ⟨v0, _ | ⟨v1, _ | ⟨v2, _ | ⟨v3, _ | ⟨v4, _ | ⟨v5, tl⟩⟩⟩⟩⟩⟩
  · simp [decodeRow] at h
  · simp [decodeRow] at h
  · simp [decodeRow] at h
  · simp [decodeRow] at h
  · simp [decodeRow] at h
  · simp [decodeRow] at h
  · cases reverse <;> cases h0 : v0.IVal <;> cases h2 : v2.IVal <;> cases h3 : v3.IVal <;>
      simp [decodeRow, h0, h2, h3] at h <;> subst h <;> rfl

/-- C11 (amended): row decoding fails, producing no edge, exactly when the row
has fewer than six columns or column 0, 2 or 3 holds no integer; column 4 does
not take part: a row that decodes gets as `idx` the string of column 4, which
is the empty string when that column holds no string. -/
theorem decodeRow_fails_iff (reverse : Bool) (values : List Value) :
    (decodeRow reverse values = none ↔
      (values.length < 6 ∨ (values[0]?).bind Value.IVal = none ∨
        (values[2]?).bind Value.IVal = none ∨ (values[3]?).bind Value.IVal = none)) ∧
    (∀ e : Edge, decodeRow reverse values = some e →
      e.idx = ((values[4]?).bind Value.SVal).getD "") :=
  ⟨decodeRow_eq_none_iff reverse values, fun e h => decodeRow_idx reverse values e h⟩

/-- Counterexample to C11 as stated: a row of six columns whose column 4 holds
an integer instead of a string decodes to an edge with the empty `idx`. -/
theorem decodeRow_mistyped_idx_counterexample :
    ¬ (∀ (reverse : Bool) (values : List Value),
        (values.length < 6 ∨ (values[0]?).bind Value.IVal = none ∨
          (values[2]?).bind Value.IVal = none ∨ (values[3]?).bind Value.IVal = none ∨
          (values[4]?).bind Value.SVal = none) →
        decodeRow reverse values = none) := by
  intro h
  have := h false [intCol 1, intCol 7, intCol 0, intCol 2, intCol 5, nullCol]
    (Or.inr (Or.inr (Or.inr (Or.inr rfl))))
  revert this
  decide

end cmd

/-! ## Peers that fail during a refresh -/

namespace raft

/-- C12 (amended): when some visited peer's raft-state call succeeds at the
transport level but carries a non-success application error code, the refresh
does not complete: the process is terminated by `glog.Fatalf`, at that peer if
not before. -/
theorem doGetLeader_aborts_on_error_code (net : RaftNet) (order : List (String × RaftPeer))
    (c : RaftCluster)
    (hbad : ∃ p ∈ order, ∃ r, net.getState p.1 = .ok r ∧ r.ErrorCode ≠ ErrorCode_SUCCEEDED) :
    doGetLeader net order c = none := by
  unfold doGetLeader
  generalize (0 : Int) = t
  induction order generalizing c t with
  | nil =>
    obtain ⟨p, hp, _⟩ := hbad
    cases hp
  | cons q rest ih =>
    obtain ⟨id, inst⟩ := q
    obtain ⟨p, hp, r, hr, hne⟩ := hbad
    simp only [doGetLeaderLoop]
    rcases List.mem_cons.1 hp with heq | hin
    · subst heq
      simp only [] at hr
      rw [hr]
      simp only [hne, ne_eq, not_false_eq_true, if_true]
    · have hrest : ∃ p ∈ rest, ∃ r, net.getState p.1 = .ok r ∧
          r.ErrorCode ≠ ErrorCode_SUCCEEDED := ⟨p, hin, r, hr, hne⟩
      cases net.getState id with
      | error msg =>
        simp only []
        split
        · split
          · exact ih _ hrest _
          · exact ih _ hrest _
        · rfl
      | ok resp =>
        simp only []
        split
        · rfl
        · split
          · split
            · exact ih _ hrest _
            · exact ih _ hrest _
          · exact ih _ hrest _

/-- Witness of C12: A answers (term 5, leader), B answers with the error code
-1; the refresh over A and B is aborted. -/
theorem doGetLeader_aborts_on_error_code_witness :
    doGetLeader netBadCode [peerA, peerB] (clusterAB "") = none :=
  doGetLeader_aborts_on_error_code netBadCode [peerA, peerB] (clusterAB "")
    ⟨peerB, by decide, { ErrorCode := -1, IsLeader := true, Term := 9 }, rfl, by decide⟩

/-- Counterexample to C12 as stated: A answers (term 5, leader) and B answers
with the error code -1; the refresh over A alone completes, the refresh over A
and B does not. -/
theorem doGetLeader_error_code_counterexample :
    ¬ (∀ (net : RaftNet) (c : RaftCluster) (pre post : List (String × RaftPeer))
        (id : String) (inst : RaftPeer) (r : GetStateResp),
        net.getState id = .ok r → r.ErrorCode ≠ ErrorCode_SUCCEEDED →
        (∀ p ∈ pre ++ post, ∃ r', net.getState p.1 = .ok r' ∧
          r'.ErrorCode = ErrorCode_SUCCEEDED) →
        ∃ c₁ c₂, doGetLeader net (pre ++ (id, inst) :: post) c = some c₁ ∧
          doGetLeader net (pre ++ post) c = some c₂ ∧ c₁.leader = c₂.leader) := by
  intro h
  obtain ⟨c₁, c₂, h1, _, _⟩ := h netBadCode (clusterAB "") [peerA] [] "B" peerB.2
    { ErrorCode := -1, IsLeader := true, Term := 9 } rfl (by decide)
    (by
      intro p hp
      simp only [List.append_nil, List.mem_singleton] at hp
      subst hp
      exact ⟨_, rfl, rfl⟩)
  have hrun : doGetLeader netBadCode ([peerA] ++ ("B", peerB.2) :: []) (clusterAB "") = none := by
    decide
  rw [hrun] at h1
  cases h1

end raft

namespace raft

/-- The leader a run of the loop leaves depends on the cluster it starts from
only through the cached leader. -/
theorem doGetLeaderLoop_leader_congr (net : RaftNet) :
    ∀ (order : List (String × RaftPeer)) (c₁ c₂ : RaftCluster) (t : Int),
      c₁.leader = c₂.leader →
      (doGetLeaderLoop net order c₁ t).map (fun c' => c'.leader) =
        (doGetLeaderLoop net order c₂ t).map (fun c' => c'.leader) := by
  intro order
  induction order with
  | nil => intro c₁ c₂ t h; simp [doGetLeaderLoop, h]
  | cons p rest ih =>
    intro c₁ c₂ t h
    obtain ⟨id, inst⟩ := p
    simp only [doGetLeaderLoop]
    cases net.getState id with
    | error msg =>
      simp only []
      split
      · split
        · exact ih _ _ _ h
        · exact ih _ _ _ h
      · rfl
    | ok resp =>
      simp only []
      split
      · rfl
      · split
        · split
          · exact ih _ _ _ rfl
          · exact ih _ _ _ h
        · exact ih _ _ _ h

/-- A peer whose call fails with a transient error leaves the run of the loop
as it would be without that peer, wherever it is visited and whether or not the
reconnect succeeds. -/
theorem doGetLeaderLoop_skip_transient (net : RaftNet) (id : String) (inst : RaftPeer)
    (msg : String) (herr : net.getState id = .error msg) (htr : isTransient msg = true)
    (post : List (String × RaftPeer)) :
    ∀ (pre : List (String × RaftPeer)) (c₁ c₂ : RaftCluster) (t : Int),
      c₁.leader = c₂.leader →
      (doGetLeaderLoop net (pre ++ (id, inst) :: post) c₁ t).map (fun c' => c'.leader) =
        (doGetLeaderLoop net (pre ++ post) c₂ t).map (fun c' => c'.leader) := by
  intro pre
  induction pre with
  | nil =>
    intro c₁ c₂ t h
    simp only [List.nil_append, doGetLeaderLoop]
    rw [herr]
    simp only [htr, if_true]
    split
    · exact doGetLeaderLoop_leader_congr net post _ _ t h
    · exact doGetLeaderLoop_leader_congr net post _ _ t h
  | cons p pre ih =>
    intro c₁ c₂ t h
    obtain ⟨id', inst'⟩ := p
    simp only [List.cons_append, doGetLeaderLoop]
    cases net.getState id' with
    | error msg' =>
      simp only []
      split
      · split
        · exact ih _ _ _ h
        · exact ih _ _ _ h
      · rfl
    | ok resp =>
      simp only []
      split
      · rfl
      · split
        · split
          · exact ih _ _ _ rfl
          · exact ih _ _ _ h
        · exact ih _ _ _ h

/-- An error message that contains one of the seven patterns is classified as
transient. -/
theorem isTransient_of_pattern (msg pat : String)
    (hpat : pat ∈ ["i/o timeout", "Invalid data length", "Not enough frame size",
      "out of sequence response", "Bad version in", "broken pipe", "EOF"])
    (hmsg : strContains msg pat = true) : isTransient msg = true := by
  simp only [List.mem_cons, List.mem_singleton, List.not_mem_nil, or_false] at hpat
  unfold isTransient
  rcases hpat with rfl | rfl | rfl | rfl | rfl | rfl | rfl <;> simp [hmsg]

/-- C13 (amended): when the raft-state call to a peer fails with an error whose
message contains one of the seven transient patterns, and every other peer
answers with the success code or fails with a transient error too, the refresh
completes, whether or not the reconnect succeeds, and the cached leader
afterwards is the one the refresh over the other peers alone produces. -/
theorem doGetLeader_transient_no_vote (net : RaftNet) (c : RaftCluster)
    (pre post : List (String × RaftPeer)) (id : String) (inst : RaftPeer) (msg pat : String)
    (hpat : pat ∈ ["i/o timeout", "Invalid data length", "Not enough frame size",
      "out of sequence response", "Bad version in", "broken pipe", "EOF"])
    (hmsg : strContains msg pat = true) (herr : net.getState id = .error msg)
    (hothers : ∀ p ∈ pre ++ post,
      (∃ r, net.getState p.1 = .ok r ∧ r.ErrorCode = ErrorCode_SUCCEEDED) ∨
      (∃ m, net.getState p.1 = .error m ∧ isTransient m = true)) :
    ∃ c₁ c₂, doGetLeader net (pre ++ (id, inst) :: post) c = some c₁ ∧
      doGetLeader net (pre ++ post) c = some c₂ ∧ c₁.leader = c₂.leader := by
  have htr := isTransient_of_pattern msg pat hpat hmsg
  obtain ⟨c₂, h2⟩ := doGetLeaderLoop_completes_of_recoverable net (pre ++ post) c 0 hothers
  have hall : ∀ p ∈ pre ++ (id, inst) :: post,
      (∃ r, net.getState p.1 = .ok r ∧ r.ErrorCode = ErrorCode_SUCCEEDED) ∨
      (∃ m, net.getState p.1 = .error m ∧ isTransient m = true) := by
    intro p hp
    rcases List.mem_append.1 hp with hp | hp
    · exact hothers p (List.mem_append_left _ hp)
    · rcases List.mem_cons.1 hp with hp | hp
      · subst hp
        exact Or.inr ⟨msg, herr, htr⟩
      · exact hothers p (List.mem_append_right _ hp)
  obtain ⟨c₁, h1⟩ := doGetLeaderLoop_completes_of_recoverable net _ c 0 hall
  refine ⟨c₁, c₂, h1, h2, ?_⟩
  have := doGetLeaderLoop_skip_transient net id inst msg herr htr post pre c c 0 rfl
  rw [h1, h2] at this
  simpa using this

/-- Witness of C13: A answers (term 5, leader), the call to B fails with an
i/o timeout and the reconnect fails too; the refresh over A and B completes
with the leader of the refresh over A alone. -/
theorem doGetLeader_transient_no_vote_witness :
    ∃ c₁ c₂, doGetLeader netTimeout ([peerA] ++ ("B", peerB.2) :: []) (clusterAB "") = some c₁ ∧
      doGetLeader netTimeout ([peerA] ++ []) (clusterAB "") = some c₂ ∧
      c₁.leader = c₂.leader :=
  doGetLeader_transient_no_vote netTimeout (clusterAB "") [peerA] [] "B" peerB.2
    "read tcp 10.0.0.2:9780: i/o timeout" "i/o timeout" (by decide) (by decide) rfl
    (by
      intro p hp
      simp only [List.append_nil, List.mem_singleton] at hp
      subst hp
      exact Or.inl ⟨_, rfl, rfl⟩)

/-- Counterexample to C13 as stated: the call to A fails with an i/o timeout
and the call to B fails with "connection refused", which is not one of the
transient patterns; A is skipped, and the refresh is aborted at B. -/
theorem doGetLeader_transient_other_fatal_counterexample :
    ¬ (∀ (net : RaftNet) (c : RaftCluster) (pre post : List (String × RaftPeer))
        (id : String) (inst : RaftPeer) (msg pat : String),
        pat ∈ ["i/o timeout", "Invalid data length", "Not enough frame size",
          "out of sequence response", "Bad version in", "broken pipe", "EOF"] →
        strContains msg pat = true → net.getState id = .error msg →
        ∃ c₁, doGetLeader net (pre ++ (id, inst) :: post) c = some c₁ ∧
          ∀ c₂, doGetLeader net (pre ++ post) c = some c₂ → c₁.leader = c₂.leader) := by
  intro h
  obtain ⟨c₁, h1, _⟩ := h netTimeoutRefused (clusterAB "") [] [peerB] "A" peerA.2
    "read tcp 10.0.0.1:9780: i/o timeout" "i/o timeout" (by decide) (by decide) rfl
  have hrun : doGetLeader netTimeoutRefused ([] ++ ("A", peerA.2) :: [peerB]) (clusterAB "") =
      none := by
    decide
  rw [hrun] at h1
  cases h1

end raft

/-! ## Edge type resolution -/

namespace cmd

/-- The loop of `getEdgeItem` finds nothing in a list without the name. -/
theorem findEdgeItem_none (edgeName : String) :
    ∀ edges : List EdgeItem, (∀ item ∈ edges, item.EdgeName ≠ edgeName) →
      findEdgeItem edgeName edges = none := by
  intro edges
  induction edges with
  | nil => intro _; rfl
  | cons x rest ih =>
    intro h
    simp only [findEdgeItem]
    rw [if_neg (h x (List.mem_cons_self _ _))]
    exact ih (fun item hi => h item (List.mem_cons_of_mem _ hi))

/-- The loop of `getEdgeItem` returns the first item with the name. -/
theorem findEdgeItem_first (edgeName : String) (item : EdgeItem) (post : List EdgeItem)
    (hname : item.EdgeName = edgeName) :
    ∀ pre : List EdgeItem, (∀ x ∈ pre, x.EdgeName ≠ edgeName) →
      findEdgeItem edgeName (pre ++ item :: post) = some item := by
  intro pre
  induction pre with
  | nil => intro _; simp [findEdgeItem, hname]
  | cons x rest ih =>
    intro h
    simp only [List.cons_append, findEdgeItem]
    rw [if_neg (h x (List.mem_cons_self _ _))]
    exact ih (fun y hy => h y (List.mem_cons_of_mem _ hy))

/-- C14: when the metadata lookup succeeds and its edge list holds no item with
the name, `getEdgeItem` returns nil and `doGetEdges` returns an error having
made the two metadata calls only, no leader resolution and no scan request;
when the list holds items with the name, `getEdgeItem` returns the first of
them in list order. -/
theorem getEdgeItem_resolution (env : ScanEnv) (edgeName : String) (resp : ListEdgesResp)
    (reverse : Bool) (fuel : Nat)
    (hclient : env.newMetaClient = .ok ()) (hlist : env.listEdges = .ok resp)
    (hcode : resp.Code = ErrorCode_SUCCEEDED) :
    ((∀ item ∈ resp.Edges, item.EdgeName ≠ edgeName) →
      getEdgeItem env edgeName = some none ∧
      doGetEdges env edgeName reverse fuel =
        ([Call.newMetaClient "meta1:9559", Call.listEdges env.globalSpaceID],
          Outcome.returned (.error "edge item is nil"))) ∧
    (∀ (pre post : List EdgeItem) (item : EdgeItem), resp.Edges = pre ++ item :: post →
      (∀ x ∈ pre, x.EdgeName ≠ edgeName) → item.EdgeName = edgeName →
      getEdgeItem env edgeName = some (some item)) := by
  have hget : getEdgeItem env edgeName = some (findEdgeItem edgeName resp.Edges) := by
    simp only [getEdgeItem, hclient, hlist, hcode, ne_eq, not_true_eq_false, if_false]
  have hcalls : getEdgeItemCalls env =
      [Call.newMetaClient "meta1:9559", Call.listEdges env.globalSpaceID] := by
    simp only [getEdgeItemCalls, hclient]
  constructor
  · intro hno
    have hnone : getEdgeItem env edgeName = some none := by
      rw [hget, findEdgeItem_none edgeName resp.Edges hno]
    refine ⟨hnone, ?_⟩
    simp only [doGetEdges, hnone, hcalls]
  · intro pre post item hsplit hpre hname
    rw [hget, hsplit, findEdgeItem_first edgeName item post hname pre hpre]

/-- Witness of C14: the space has the edge types `known1`, `known2` and a
second `known2`; the name `nope` makes `doGetEdges` return its error after the
metadata calls, the name `known2` resolves to the first `known2` item. -/
theorem getEdgeItem_resolution_witness :
    (getEdgeItem (envOf [] ([], none)) "nope" = some none ∧
      doGetEdges (envOf [] ([], none)) "nope" true 3 =
        ([Call.newMetaClient "meta1:9559", Call.listEdges 1],
          Outcome.returned (.error "edge item is nil"))) ∧
    getEdgeItem (envOf [] ([], none)) "known2" = some (some ⟨7, "known2"⟩) :=
  ⟨(getEdgeItem_resolution (envOf [] ([], none)) "nope"
      { Code := 0, Edges := [⟨5, "known1"⟩, ⟨7, "known2"⟩, ⟨8, "known2"⟩] } true 3
      rfl rfl rfl).1 (by decide),
    (getEdgeItem_resolution (envOf [] ([], none)) "known2"
      { Code := 0, Edges := [⟨5, "known1"⟩, ⟨7, "known2"⟩, ⟨8, "known2"⟩] } true 3
      rfl rfl rfl).2 [⟨5, "known1"⟩] [⟨8, "known2"⟩] ⟨7, "known2"⟩ rfl (by decide) rfl⟩

end cmd

/-! ## Host specifiers -/

namespace raft

/-- Reading the peer just assigned to an id. -/
theorem lookup_setHost (id : String) (peer : RaftPeer) :
    ∀ hosts : List (String × RaftPeer), (setHost id peer hosts).lookup id = some peer := by
  intro hosts
  induction hosts with
  | nil => simp [setHost, List.lookup]
  | cons q rest ih =>
    obtain ⟨k, p⟩ := q
    simp only [setHost]
    by_cases h : k = id
    · subst h
      simp [List.lookup]
    · have : (id == k) = false := by
        simpa using fun e : id = k => h e.symm
      simp only [h, if_false, List.lookup, this]
      exact ih

/-- C15: for a host specifier without a colon `parseHost` succeeds with the
specifier as host and the default raft port 9780, so `RegisterHost` opens the
connection to port 9780 and, when that succeeds, registers the peer with port
9780 under the id. -/
theorem parseHost_default_port (h : String) (hcolon : ':' ∉ h.data) :
    parseHost h = (h, 9780, none) ∧
    ∀ (net : RaftNet) (c : RaftCluster) (id : String),
      RegisterHost net c id h = RegisterHostWithPort net c id h 9780 ∧
      ∀ client : Nat, net.newRaftClient h 9780 = .ok client →
        ∃ c', RegisterHost net c id h = .ok c' ∧
          c'.hosts.lookup id = some { host := h, port := 9780, client := client } := by
  have hparse : parseHost h = (h, 9780, none) := by
    simp only [parseHost, hcolon, not_false_eq_true, if_true, defaultRaftPort]
  refine ⟨hparse, ?_⟩
  intro net c id
  have hreg : RegisterHost net c id h = RegisterHostWithPort net c id h 9780 := by
    simp only [RegisterHost, hparse]
  refine ⟨hreg, ?_⟩
  intro client hclient
  have hrun : RegisterHost net c id h =
      .ok { c with hosts := setHost id { host := h, port := 9780, client := client } c.hosts } := by
    rw [hreg]
    simp only [RegisterHostWithPort, hclient]
  exact ⟨_, hrun, lookup_setHost id _ c.hosts⟩

/-- Witness of C15: the specifier `store1`. -/
theorem parseHost_default_port_witness :
    parseHost "store1" = ("store1", 9780, none) ∧
    ∀ (net : RaftNet) (c : RaftCluster) (id : String),
      RegisterHost net c id "store1" = RegisterHostWithPort net c id "store1" 9780 ∧
      ∀ client : Nat, net.newRaftClient "store1" 9780 = .ok client →
        ∃ c', RegisterHost net c id "store1" = .ok c' ∧
          c'.hosts.lookup id = some { host := "store1", port := 9780, client := client } :=
  parseHost_default_port "store1" (by decide)

end raft

/-! ## Decimal rendering and the edge key -/

namespace raft

/-- Reading digits across a concatenation. -/
theorem digitsValue_append (xs ys : List Char) :
    ∀ acc : Nat, digitsValue (xs ++ ys) acc = (digitsValue xs acc).bind (digitsValue ys) := by
  induction xs with
  | nil => intro acc; simp [digitsValue]
  | cons x xs ih =>
    intro acc
    simp only [List.cons_append, digitsValue]
    split
    · exact ih _
    · rfl

/-- A text that reads as digits consists of digits. -/
theorem digitsValue_digits (l : List Char) :
    ∀ (acc n : Nat), digitsValue l acc = some n →
      ∀ ch ∈ l, 48 ≤ ch.toNat ∧ ch.toNat ≤ 57 := by
  induction l with
  | nil => intro _ _ _ ch hch; cases hch
  | cons x xs ih =>
    intro acc n h ch hch
    simp only [digitsValue] at h
    split at h
    · rename_i hx
      rcases List.mem_cons.1 hch with rfl | hch
      · exact hx
      · exact ih _ _ h ch hch
    · cases h

/-- A text of digits reads as digits. -/
theorem digitsValue_isSome (l : List Char) (h : ∀ ch ∈ l, 48 ≤ ch.toNat ∧ ch.toNat ≤ 57) :
    ∀ acc : Nat, ∃ n, digitsValue l acc = some n := by
  induction l with
  | nil => intro acc; exact ⟨acc, rfl⟩
  | cons x xs ih =>
    intro acc
    simp only [digitsValue]
    rw [if_pos (h x (List.mem_cons_self _ _))]
    exact ih (fun ch hch => h ch (List.mem_cons_of_mem _ hch)) _

end raft

namespace cmd

/-- The character of a decimal digit. -/
theorem digitChar_toNat (d : Nat) (h : d < 10) : (Nat.digitChar d).toNat = 48 + d := by
  interval_cases d <;> rfl

/-- The decimal rendering of a natural number reads back as that number. -/
theorem digitsValue_decimal :
    ∀ (fuel n : Nat), n < fuel → raft.digitsValue (decimal fuel n) 0 = some n := by
  intro fuel
  induction fuel with
  | zero => intro n h; exact absurd h (Nat.not_lt_zero _)
  | succ f ih =>
    intro n hn
    simp only [decimal]
    split
    · rename_i h10
      have := digitChar_toNat n h10
      simp only [raft.digitsValue, this]
      rw [if_pos (by omega)]
      simp
    · rename_i h10
      have hq : n / 10 < f := by omega
      have hd := digitChar_toNat (n % 10) (Nat.mod_lt _ (by decide))
      rw [raft.digitsValue_append, ih _ hq]
      simp only [Option.bind, raft.digitsValue, hd]
      rw [if_pos (by omega)]
      congr 1
      omega

/-- The decimal rendering of a natural number is not empty. -/
theorem decimal_ne_nil (fuel n : Nat) : decimal (fuel + 1) n ≠ [] := by
  simp only [decimal]
  split <;> simp

/-- The decimal rendering of a natural number consists of digits. -/
theorem decimal_digits (fuel n : Nat) (h : n < fuel) :
    ∀ ch ∈ decimal fuel n, 48 ≤ ch.toNat ∧ ch.toNat ≤ 57 :=
  raft.digitsValue_digits _ 0 n (digitsValue_decimal fuel n h)

/-- The characters of a rendered integer: the minus sign and digits. -/
theorem fmtInt_chars (x : Int) : ∀ ch ∈ fmtInt x, ch = '-' ∨ (48 ≤ ch.toNat ∧ ch.toNat ≤ 57) := by
  intro ch hch
  cases x with
  | ofNat n => exact Or.inr (decimal_digits (n + 1) n (Nat.lt_succ_self n) ch hch)
  | negSucc n =>
    simp only [fmtInt] at hch
    rcases List.mem_cons.1 hch with h | h
    · exact Or.inl h
    · exact Or.inr (decimal_digits (n + 2) (n + 1) (Nat.lt_succ_self _) ch h)

/-- Two integers with the same rendering are equal. -/
theorem fmtInt_injective (x y : Int) (h : fmtInt x = fmtInt y) : x = y := by
  have hminus : ¬ (48 ≤ '-'.toNat ∧ '-'.toNat ≤ 57) := by decide
  cases x with
  | ofNat n =>
    cases y with
    | ofNat m =>
      simp only [fmtInt] at h
      have h1 := digitsValue_decimal (n + 1) n (Nat.lt_succ_self n)
      have h2 := digitsValue_decimal (m + 1) m (Nat.lt_succ_self m)
      rw [h, h2] at h1
      cases h1
      rfl
    | negSucc m =>
      simp only [fmtInt] at h
      have := decimal_digits (n + 1) n (Nat.lt_succ_self n) '-' (by rw [h]; simp)
      exact absurd this hminus
  | negSucc n =>
    cases y with
    | ofNat m =>
      simp only [fmtInt] at h
      have := decimal_digits (m + 1) m (Nat.lt_succ_self m) '-' (by rw [← h]; simp)
      exact absurd this hminus
    | negSucc m =>
      simp only [fmtInt, List.cons.injEq, true_and] at h
      have h1 := digitsValue_decimal (n + 2) (n + 1) (Nat.lt_succ_self _)
      have h2 := digitsValue_decimal (m + 2) (m + 1) (Nat.lt_succ_self _)
      rw [h, h2] at h1
      simp only [Option.some.injEq, add_left_inj] at h1
      rw [h1]

/-- A text is cut in one way only at the first occurrence of a character. -/
theorem split_unique (x : Char) :
    ∀ (a a' r r' : List Char), x ∉ a → x ∉ a' → a ++ x :: r = a' ++ x :: r' →
      a = a' ∧ r = r' := by
  intro a
  induction a with
  | nil =>
    intro a' r r' _ ha' h
    cases a' with
    | nil => simpa using h
    | cons y ys =>
      simp only [List.nil_append, List.cons_append, List.cons.injEq] at h
      exact absurd (h.1 ▸ List.mem_cons_self _ _) ha'
  | cons y ys ih =>
    intro a' r r' ha ha' h
    cases a' with
    | nil =>
      simp only [List.nil_append, List.cons_append, List.cons.injEq] at h
      exact absurd (h.1 ▸ List.mem_cons_self _ _) ha
    | cons z zs =>
      simp only [List.cons_append, List.cons.injEq] at h
      have := ih zs r r' (fun hm => ha (List.mem_cons_of_mem _ hm))
        (fun hm => ha' (List.mem_cons_of_mem _ hm)) h.2
      exact ⟨by rw [h.1, this.1], this.2⟩

/-- C16: two edges have the same key exactly when they have the same source,
destination and rank, for all integer values of the fields, negative ones
included; `idx` and `ts` do not enter the key. -/
theorem Key_eq_iff (e₁ e₂ : Edge) (idx : String) (ts : Option DateTime) :
    (e₁.Key = e₂.Key ↔ (e₁.src = e₂.src ∧ e₁.dst = e₂.dst ∧ e₁.rank = e₂.rank)) ∧
    Edge.Key { e₁ with idx := idx, ts := ts } = e₁.Key := by
  refine ⟨⟨?_, ?_⟩, rfl⟩
  · intro h
    have hgt : ∀ x : Int, '>' ∉ fmtInt x ++ ['-'] := by
      intro x hm
      rcases List.mem_append.1 hm with hm | hm
      · rcases fmtInt_chars x _ hm with h1 | h1
        · revert h1; decide
        · revert h1; decide
      · revert hm; decide
    have hat : ∀ x : Int, '@' ∉ fmtInt x := by
      intro x hm
      rcases fmtInt_chars x _ hm with h1 | h1
      · revert h1; decide
      · revert h1; decide
    have h := congrArg String.data h
    simp only [Edge.Key] at h
    have h' : (fmtInt e₁.src ++ ['-']) ++ '>' :: (fmtInt e₁.dst ++ '@' :: fmtInt e₁.rank) =
        (fmtInt e₂.src ++ ['-']) ++ '>' :: (fmtInt e₂.dst ++ '@' :: fmtInt e₂.rank) := by
      simpa using h
    obtain ⟨hs, hrest⟩ := split_unique '>' _ _ _ _ (hgt _) (hgt _) h'
    obtain ⟨hd, hr⟩ := split_unique '@' _ _ _ _ (hat _) (hat _) hrest
    exact ⟨fmtInt_injective _ _ (List.append_cancel_right hs), fmtInt_injective _ _ hd,
      fmtInt_injective _ _ hr⟩
  · rintro ⟨h1, h2, h3⟩
    simp only [Edge.Key, h1, h2, h3]

end cmd

/-! ## Host specifiers with a port -/

namespace raft

/-- Reading digits never lowers the value read so far. -/
theorem digitsValue_le (l : List Char) :
    ∀ (acc n : Nat), digitsValue l acc = some n → acc ≤ n := by
  induction l with
  | nil =>
    intro acc n h
    simp only [digitsValue, Option.some.injEq] at h
    omega
  | cons x xs ih =>
    intro acc n h
    simp only [digitsValue] at h
    split at h
    · have := ih _ _ h
      omega
    · cases h

/-- On a text of digits whose value fits 64 bits, the loop of `ParseUint`
returns that value. -/
theorem parseUintLoop_of_digitsValue (l : List Char) :
    ∀ (acc n : Nat), digitsValue l acc = some n → n ≤ 18446744073709551615 →
      parseUintLoop l acc = .ok n := by
  induction l with
  | nil =>
    intro acc n h _
    simp only [digitsValue, Option.some.injEq] at h
    simp only [parseUintLoop, h]
  | cons x xs ih =>
    intro acc n h hn
    simp only [digitsValue] at h
    split at h
    · rename_i hx
      have hle := digitsValue_le xs _ _ h
      simp only [parseUintLoop]
      rw [if_pos hx, if_neg (by omega), if_neg (by omega)]
      exact ih _ _ h hn
    · cases h

/-- A text on which the loop of `ParseUint` succeeds consists of digits. -/
theorem parseUintLoop_digits (l : List Char) :
    ∀ (acc n : Nat), parseUintLoop l acc = .ok n →
      ∀ ch ∈ l, 48 ≤ ch.toNat ∧ ch.toNat ≤ 57 := by
  induction l with
  | nil => intro _ _ _ ch hch; cases hch
  | cons x xs ih =>
    intro acc n h ch hch
    simp only [parseUintLoop] at h
    split at h
    · rename_i hx
      split at h
      · cases h
      · split at h
        · cases h
        · rcases List.mem_cons.1 hch with rfl | hch
          · exact hx
          · exact ih _ _ h ch hch
    · cases h

/-- A text on which `ParseUint` succeeds is a non-empty text of digits. -/
theorem ParseUint_ok (l : List Char) (n : Nat) (h : ParseUint l = .ok n) :
    l ≠ [] ∧ ∀ ch ∈ l, 48 ≤ ch.toNat ∧ ch.toNat ≤ 57 := by
  unfold ParseUint at h
  cases l with
  | nil => simp at h
  | cons x xs =>
    simp only [List.isEmpty_cons, Bool.false_eq_true, if_false] at h
    exact ⟨List.cons_ne_nil _ _, parseUintLoop_digits _ 0 n h⟩

/-- `Atoi` on a non-empty text of digits that does not start with a sign. -/
theorem Atoi_digits (body : List Char) (n : Nat) (hne : body ≠ [])
    (hval : digitsValue body 0 = some n) (hn : n < 9223372036854775808) :
    Atoi body = ((n : Int), none) := by
  obtain ⟨ch, rest, rfl⟩ := List.exists_cons_of_ne_nil hne
  have hdig := digitsValue_digits _ 0 n hval ch (List.mem_cons_self _ _)
  have h1 : ¬ (ch = '-') := by
    intro h
    subst h
    revert hdig
    decide
  have h2 : ¬ (ch = '+') := by
    intro h
    subst h
    revert hdig
    decide
  have h3 : ¬ (n ≥ 9223372036854775808) := by omega
  have hpu : ParseUint (ch :: rest) = .ok n := by
    simp only [ParseUint, List.isEmpty_cons, Bool.false_eq_true, if_false]
    exact parseUintLoop_of_digitsValue _ 0 n hval (by omega)
  simp only [Atoi, ParseInt, List.isEmpty_cons, Bool.false_eq_true, if_false, List.head?,
    Option.some.injEq, h1, h2, or_self, hpu, h3, and_false, false_and]

/-- `Atoi` on a minus sign followed by a non-empty text of digits. -/
theorem Atoi_minus_digits (body : List Char) (n : Nat) (hne : body ≠ [])
    (hval : digitsValue body 0 = some n) (hn : n ≤ 9223372036854775808) :
    Atoi ('-' :: body) = (-(n : Int), none) := by
  have h3 : ¬ (n > 9223372036854775808) := by omega
  have hpu : ParseUint body = .ok n := by
    obtain ⟨ch, rest, rfl⟩ := List.exists_cons_of_ne_nil hne
    simp only [ParseUint, List.isEmpty_cons, Bool.false_eq_true, if_false]
    exact parseUintLoop_of_digitsValue _ 0 n hval (by omega)
  simp only [Atoi, ParseInt, List.isEmpty_cons, Bool.false_eq_true, if_false, List.head?,
    or_true, if_true, List.tail_cons, hpu, not_true_eq_false, false_and, h3, and_false]

/-- `Atoi` reads the decimal rendering of a 64-bit integer back. -/
theorem Atoi_fmtInt (p : Int) (hlo : -9223372036854775808 ≤ p)
    (hhi : p ≤ 9223372036854775807) : Atoi (cmd.fmtInt p) = (p, none) := by
  cases p with
  | ofNat n =>
    have hn : n < 9223372036854775808 := by
      have : (n : Int) ≤ 9223372036854775807 := hhi
      omega
    exact Atoi_digits _ n (cmd.decimal_ne_nil n n)
      (cmd.digitsValue_decimal (n + 1) n (Nat.lt_succ_self n)) hn
  | negSucc n =>
    have hn : n + 1 ≤ 9223372036854775808 := by
      have h0 : -9223372036854775808 ≤ -((n : Int) + 1) := by
        rw [← Int.negSucc_eq]
        exact hlo
      omega
    have := Atoi_minus_digits _ (n + 1) (cmd.decimal_ne_nil (n + 1) (n + 1))
      (cmd.digitsValue_decimal (n + 2) (n + 1) (Nat.lt_succ_self _)) hn
    simp only [cmd.fmtInt]
    rw [this]
    rfl

/-- A text on which `Atoi` returns a nil error is a decimal integer. -/
theorem Atoi_ok_decimal (s : List Char) (v : Int) (h : Atoi s = (v, none)) :
    isDecimalInteger s := by
  cases s with
  | nil => simp [Atoi, ParseInt] at h
  | cons ch rest =>
    simp only [Atoi, ParseInt, List.isEmpty_cons, Bool.false_eq_true, if_false, List.head?,
      Option.some.injEq, List.tail_cons] at h
    by_cases hsign : ch = '+' ∨ ch = '-'
    · rw [if_pos hsign] at h
      cases hpu : ParseUint rest with
      | error e =>
        rw [hpu] at h
        cases e
        · simp at h
        · simp only [] at h
          split at h <;> simp at h
      | ok un =>
        obtain ⟨hne, hdig⟩ := ParseUint_ok rest un hpu
        refine ⟨[ch], rest, rfl, ?_, hne, hdig⟩
        rcases hsign with rfl | rfl
        · exact Or.inr (Or.inr rfl)
        · exact Or.inr (Or.inl rfl)
    · rw [if_neg hsign] at h
      cases hpu : ParseUint (ch :: rest) with
      | error e =>
        rw [hpu] at h
        cases e
        · simp at h
        · simp only [] at h
          split at h <;> simp at h
      | ok un =>
        obtain ⟨hne, hdig⟩ := ParseUint_ok _ un hpu
        exact ⟨[], ch :: rest, rfl, Or.inl rfl, hne, hdig⟩

/-- `Atoi` returns an error on a text that is not a decimal integer. -/
theorem Atoi_not_decimal (s : List Char) (h : ¬ isDecimalInteger s) :
    ∃ port err, Atoi s = (port, some err) := by
  cases hA : Atoi s with
  | mk port e =>
    cases e with
    | none => exact absurd (Atoi_ok_decimal s port hA) h
    | some err => exact ⟨port, err, rfl⟩

/-- The overflow is found before the letter: on twenty nines followed by `x`
`Atoi` returns the largest 64-bit integer and `ErrRange`, and `parseHost` with
it. -/
theorem parseHost_overflow_before_letter :
    Atoi "99999999999999999999x".data = (9223372036854775807, some NumError.ErrRange) ∧
    parseHost "h:99999999999999999999x" =
      ("h", 9223372036854775807,
        some { h := "h:99999999999999999999x", cause := NumError.ErrRange }) := by
  constructor <;> decide

/-- The start of a specifier up to its first colon. -/
theorem takeWhile_colon (rest : List Char) :
    ∀ s : List Char, ':' ∉ s →
      (s ++ ':' :: rest).takeWhile (fun ch => ch ≠ ':') = s := by
  intro s
  induction s with
  | nil => intro _; simp
  | cons x xs ih =>
    intro h
    have hx : x ≠ ':' := fun e => h (e ▸ List.mem_cons_self _ _)
    have hxs : ':' ∉ xs := fun hm => h (List.mem_cons_of_mem _ hm)
    simp only [List.cons_append, List.takeWhile_cons, hx, ne_eq, not_false_eq_true,
      decide_True, if_true, List.cons.injEq, true_and]
    exact ih hxs

/-- `parseHost` on a specifier with a colon: the host is the text before the
first colon and the port is read by `Atoi` from the text after it. -/
theorem parseHost_colon (s rest : List Char) (hs : ':' ∉ s) :
    parseHost (String.mk (s ++ ':' :: rest)) =
      match Atoi rest with
      | (port, none) => (String.mk s, port, none)
      | (port, some err) =>
        (String.mk s, port, some { h := String.mk (s ++ ':' :: rest), cause := err }) := by
  have hmem : ¬ (':' ∉ s ++ ':' :: rest) := by simp
  have hdrop : List.drop (s.length + 1) (s ++ ':' :: rest) = rest := by
    have : s ++ ':' :: rest = (s ++ [':']) ++ rest := by simp
    rw [this]
    exact List.drop_left' (by simp)
  have htake : List.take s.length (s ++ ':' :: rest) = s := List.take_left' rfl
  simp only [parseHost, hmem, if_false, takeWhile_colon rest s hs, hdrop, htake]

/-- C18: for a host `s` without a colon, `parseHost` on `s`, a colon and the
decimal rendering of a 64-bit port `p` succeeds with `(s, p)`; on `s`, a colon
and a text that is not a decimal integer it returns a non-nil error, which
`RegisterHost` returns in turn, without a cluster with a new peer. -/
theorem parseHost_with_port (s : String) (hs : ':' ∉ s.data) :
    (∀ p : Int, -9223372036854775808 ≤ p → p ≤ 9223372036854775807 →
      parseHost (String.mk (s.data ++ ':' :: cmd.fmtInt p)) = (s, p, none)) ∧
    (∀ rest : List Char, ¬ isDecimalInteger rest →
      ∃ port err, parseHost (String.mk (s.data ++ ':' :: rest)) = (s, port, some err) ∧
        ∀ (net : RaftNet) (c : RaftCluster) (id : String),
          RegisterHost net c id (String.mk (s.data ++ ':' :: rest)) =
            .error (RegisterError.parse err)) := by
  constructor
  · intro p hlo hhi
    rw [parseHost_colon s.data _ hs, Atoi_fmtInt p hlo hhi]
  · intro rest hrest
    have hparse := parseHost_colon s.data rest hs
    obtain ⟨port, err, hA⟩ := Atoi_not_decimal rest hrest
    rw [hA] at hparse
    simp only [] at hparse
    refine ⟨port, _, hparse, ?_⟩
    intro net c id
    simp only [RegisterHost, hparse]

/-- Witness of C18: `store1:9780` parses to the host `store1` and the port
9780; `store1:http` makes `parseHost` and `RegisterHost` return an error. -/
theorem parseHost_with_port_witness :
    parseHost "store1:9780" = ("store1", 9780, none) ∧
    ∃ port err, parseHost "store1:http" = ("store1", port, some err) ∧
      ∀ (net : RaftNet) (c : RaftCluster) (id : String),
        RegisterHost net c id "store1:http" = .error (RegisterError.parse err) :=
  ⟨(parseHost_with_port "store1" (by decide)).1 9780 (by decide) (by decide),
    (parseHost_with_port "store1" (by decide)).2 ['h', 't', 't', 'p'] (by
      rintro ⟨sign, digits, hsplit, hsign, _, hdig⟩
      rcases hsign with rfl | rfl | rfl
      · simp only [List.nil_append] at hsplit
        subst hsplit
        have := hdig 'h' (List.mem_cons_self _ _)
        revert this
        decide
      · simp at hsplit
      · simp at hsplit)⟩

end raft

/-! ## The paginated scan -/

namespace cmd

/-- The loop over the rows of a page appends the decoded rows, in order. -/
theorem decodeRows_eq (reverse : Bool) :
    ∀ (rows : List (List Value)) (es acc : List Edge),
      rows.map (decodeRow reverse) = es.map some →
      decodeRows reverse rows acc = some (acc ++ es) := by
  intro rows
  induction rows with
  | nil =>
    intro es acc h
    cases es with
    | nil => simp [decodeRows]
    | cons e es => simp at h
  | cons r rows ih =>
    intro es acc h
    cases es with
    | nil => simp at h
    | cons e es =>
      simp only [List.map_cons, List.cons.injEq] at h
      simp only [decodeRows, h.1]
      rw [ih es (acc ++ [e]) h.2]
      simp

/-- The page server after its first page. -/
theorem pagesServer_succ (p : List (List Value) × String)
    (pages : List (List (List Value) × String)) (last : List (List Value) × Option String)
    (i : Nat) (req : ScanEdgeRequest) :
    pagesServer (p :: pages) last (i + 1) req = pagesServer pages last i req := by
  simp [pagesServer]

/-- The scan loop against a server that, from its call number `k` on, answers
with `pages` and then `last`: one request per page, the first with the cursor
the loop holds and each next one with the cursor of the page before, and the
decoded rows of all the pages appended in page order. -/
theorem scanLoop_pages (env : ScanEnv) (edgeType : Int) (reverse : Bool)
    (last : List (List Value) × Option String) :
    ∀ (pages : List (List (List Value) × String)) (fuel k : Nat) (cur : Option String)
      (acc es : List Edge) (calls : List Call),
      (∀ i req, env.scanEdge (k + i) req = pagesServer pages last i req) →
      pages.length + 1 ≤ fuel →
      ((pages.map Prod.fst).flatten ++ last.1).map (decodeRow reverse) = es.map some →
      scanLoop env edgeType reverse fuel k cur acc calls =
        (calls ++ (cur :: pages.map (fun p => some p.2)).map
            (fun c => Call.scanEdge (scanRequest env edgeType c)),
          Outcome.returned (.ok (acc ++ es))) := by
  intro pages
  induction pages with
  | nil =>
    intro fuel k cur acc es calls hsrv hfuel hdec
    obtain ⟨f, rfl⟩ : ∃ f, fuel = f + 1 := ⟨fuel - 1, by simp at hfuel; omega⟩
    have h0 := hsrv 0 (scanRequest env edgeType cur)
    simp only [Nat.add_zero, pagesServer, List.getElem?_nil, List.length_nil, if_true] at h0
    simp only [List.map_nil, List.flatten_nil, List.nil_append] at hdec
    simp only [scanLoop, h0, decodeRows_eq reverse last.1 es acc hdec, Bool.not_false, if_true,
      List.map_cons, List.map_nil]
  | cons p pages ih =>
    intro fuel k cur acc es calls hsrv hfuel hdec
    obtain ⟨f, rfl⟩ : ∃ f, fuel = f + 1 := ⟨fuel - 1, by simp at hfuel; omega⟩
    have h0 := hsrv 0 (scanRequest env edgeType cur)
    simp only [Nat.add_zero, pagesServer, List.getElem?_cons_zero] at h0
    simp only [List.map_cons, List.flatten_cons, List.append_assoc, List.map_append] at hdec
    obtain ⟨es₁, es₂, hes, h1, h2⟩ := List.map_eq_append_iff.1 hdec.symm
    have hsrv' : ∀ i req, env.scanEdge (k + 1 + i) req = pagesServer pages last i req := by
      intro i req
      rw [← pagesServer_succ p pages last i req, ← hsrv (i + 1) req]
      congr 1
      omega
    have hdec' : ((pages.map Prod.fst).flatten ++ last.1).map (decodeRow reverse) =
        es₂.map some := by
      rw [h2, List.map_append]
    have hrec := ih f (k + 1) (some p.2) (acc ++ es₁) es₂
      (calls ++ [Call.scanEdge (scanRequest env edgeType cur)]) hsrv'
      (by simp only [List.length_cons] at hfuel; omega) hdec'
    simp only [scanLoop, h0, decodeRows_eq reverse p.1 es₁ acc h1.symm, Bool.not_true,
      Bool.false_eq_true, if_false, hrec, hes]
    simp

/-- The calls of a `getEdgeItem` that returns. -/
theorem getEdgeItemCalls_of_returned (env : ScanEnv) (edgeName : String)
    (res : Option EdgeItem) (h : getEdgeItem env edgeName = some res) :
    getEdgeItemCalls env = [Call.newMetaClient "meta1:9559", Call.listEdges env.globalSpaceID] := by
  unfold getEdgeItem at h
  unfold getEdgeItemCalls
  cases hc : env.newMetaClient with
  | error e => rw [hc] at h; cases h
  | ok u => rfl

/-- C17: against a scan server that answers with the pages of `pages`, each
with "has more" and a cursor, and then with the page `last` without "has
more", `doGetEdges` makes, after the metadata, leader and connection calls, one
scan request per page and none after the last: the first request carries no
cursor (`HasNext` false, nil `NextCursor`) and each next one the cursor of the
page before; it returns the decoded rows of all the pages in page order. This
holds for every number of loop iterations sufficient for the pages. -/
theorem doGetEdges_pagination (env : ScanEnv) (edgeName leader : String) (reverse : Bool)
    (item : EdgeItem) (pages : List (List (List Value) × String))
    (last : List (List Value) × Option String) (es : List Edge) (fuel : Nat)
    (hitem : getEdgeItem env edgeName = some (some item))
    (hleader : env.getLeader = .ok leader)
    (hconn : env.newNebulaConn (leader ++ ":9779") = .ok ())
    (hserver : env.scanEdge = pagesServer pages last)
    (hdec : ((pages.map Prod.fst).flatten ++ last.1).map (decodeRow reverse) = es.map some)
    (hfuel : pages.length + 1 ≤ fuel) :
    doGetEdges env edgeName reverse fuel =
      ([Call.newMetaClient "meta1:9559", Call.listEdges env.globalSpaceID, Call.getLeader,
          Call.newNebulaConn (leader ++ ":9779"),
          Call.scanEdge
            { Limit := 4096
              SpaceID := env.globalSpaceID
              PartID := env.globalPartitionID
              Cursor := { HasNext := false, NextCursor := none }
              EdgeType := if reverse then negInt32 item.EdgeType else item.EdgeType
              Props := ["_src", "_type", "_rank", "_dst", "idx", "ts"] }] ++
          pages.map (fun page => Call.scanEdge
            { Limit := 4096
              SpaceID := env.globalSpaceID
              PartID := env.globalPartitionID
              Cursor := { HasNext := true, NextCursor := some page.2 }
              EdgeType := if reverse then negInt32 item.EdgeType else item.EdgeType
              Props := ["_src", "_type", "_rank", "_dst", "idx", "ts"] }),
        Outcome.returned (.ok es)) := by
  have hloop := scanLoop_pages env (if reverse then negInt32 item.EdgeType else item.EdgeType)
    reverse last pages fuel 0 none [] es
    (getEdgeItemCalls env ++ [Call.getLeader] ++ [Call.newNebulaConn (leader ++ ":9779")])
    (by intro i req; rw [hserver, Nat.zero_add]) hfuel hdec
  have hcalls := getEdgeItemCalls_of_returned env edgeName _ hitem
  rw [hcalls] at hloop
  simp only [List.cons_append, List.nil_append] at hloop
  simp only [doGetEdges, hitem, hleader, hconn, hcalls, List.cons_append, List.nil_append]
  rw [hloop]
  simp [scanRequest, Function.comp_def]

/-- Witness of C17: three pages of one row each, the first two with the cursors
`c0` and `c1`; the reverse scan of `known2` makes three scan requests, with no
cursor, with `c0` and with `c1`, and returns the three edges in page order. -/
theorem doGetEdges_pagination_witness :
    doGetEdges (envOf [([rowOf 2 1], "c0"), ([rowOf 4 3], "c1")] ([rowOf 6 5], none))
        "known2" true 3 =
      ([Call.newMetaClient "meta1:9559", Call.listEdges 1, Call.getLeader,
          Call.newNebulaConn "store1:9779",
          Call.scanEdge
            { Limit := 4096, SpaceID := 1, PartID := 1,
              Cursor := { HasNext := false, NextCursor := none },
              EdgeType := -7, Props := ["_src", "_type", "_rank", "_dst", "idx", "ts"] },
          Call.scanEdge
            { Limit := 4096, SpaceID := 1, PartID := 1,
              Cursor := { HasNext := true, NextCursor := some "c0" },
              EdgeType := -7, Props := ["_src", "_type", "_rank", "_dst", "idx", "ts"] },
          Call.scanEdge
            { Limit := 4096, SpaceID := 1, PartID := 1,
              Cursor := { HasNext := true, NextCursor := some "c1" },
              EdgeType := -7, Props := ["_src", "_type", "_rank", "_dst", "idx", "ts"] }],
        Outcome.returned (.ok
          [{ src := 1, dst := 2, rank := 0, idx := "x", ts := none },
           { src := 3, dst := 4, rank := 0, idx := "x", ts := none },
           { src := 5, dst := 6, rank := 0, idx := "x", ts := none }])) :=
  doGetEdges_pagination (envOf [([rowOf 2 1], "c0"), ([rowOf 4 3], "c1")] ([rowOf 6 5], none))
    "known2" "store1" true ⟨7, "known2"⟩ [([rowOf 2 1], "c0"), ([rowOf 4 3], "c1")]
    ([rowOf 6 5], none) _ 3 rfl rfl rfl rfl (by decide) (by decide)

end cmd
